/-
Verification of the graphthingy plotting program.

The development shallowly embeds the Rust sources (src/graph.rs, src/image.rs,
src/main.rs, src/config.rs, src/point.rs) into Lean.

Numeric model: f64 values are modelled by the type F below, a rational number
extended with +infinity, -infinity and NaN.  Arithmetic on finite values is
exact rational arithmetic (the idealization of floating point customary in a
shallow embedding: no rounding and no overflow); the special values follow the
IEEE-754 rules for the operations the program uses.  Machine integers (usize,
u32, i32) are modelled by Nat/Int; none of the verified claims exercises
wrap-around, and the few places where Rust would panic (slice indexing,
usize subtraction, a failed expect) are modelled with Option.

Real-valued claims about the statistics and the log-scale mapping are stated
over the reals, where powf/sqrt are Real.rpow/Real.sqrt.
-/
import Mathlib

set_option maxHeartbeats 1000000

/-- 2-D point with named components, from src/point.rs (Point2<T>). -/
structure Point2 (α : Type) where
  x : α
  y : α
deriving Repr, DecidableEq

namespace Point2

/-- Componentwise addition (op_impl Add in src/point.rs). -/
def add {α : Type} [Add α] (p q : Point2 α) : Point2 α := ⟨p.x + q.x, p.y + q.y⟩

/-- Componentwise subtraction (op_impl Sub in src/point.rs). -/
def sub {α : Type} [Sub α] (p q : Point2 α) : Point2 α := ⟨p.x - q.x, p.y - q.y⟩

/-- Componentwise multiplication (op_impl Mul in src/point.rs). -/
def mul {α : Type} [Mul α] (p q : Point2 α) : Point2 α := ⟨p.x * q.x, p.y * q.y⟩

/-- Componentwise division (op_impl Div in src/point.rs). -/
def div {α : Type} [Div α] (p q : Point2 α) : Point2 α := ⟨p.x / q.x, p.y / q.y⟩

/-- Scalar multiplication (op_impl_scalar Mul in src/point.rs). -/
def smul {α : Type} [Mul α] (p : Point2 α) (s : α) : Point2 α := ⟨p.x * s, p.y * s⟩

/-- Modelled from the spec: Point2::repeat (both components equal), used by
src/image.rs but not present in src/point.rs.  Named rep here because repeat
is a Lean keyword. -/
def rep {α : Type} (v : α) : Point2 α := ⟨v, v⟩

end Point2

/--
The f64 model: exact rationals extended with the three special values.
finite q stands for any f64 whose numeric value is the rational q (zero is
unsigned in this model).
-/
inductive F where
  | finite : ℚ → F
  | inf : F
  | neginf : F
  | nan : F
deriving Repr, DecidableEq

namespace F

/-- f64::MAX, the value graph.rs uses as the initial bottom / running lowest. -/
def f64MAX : ℚ := (2 ^ 53 - 1) * 2 ^ 971

/-- Is this value NaN. -/
def isNaN : F → Bool
  | nan => true
  | _ => false

/-- IEEE negation. -/
def neg : F → F
  | finite q => finite (-q)
  | inf => neginf
  | neginf => inf
  | nan => nan

/-- IEEE addition (finite addition exact, no overflow modelled). -/
def add : F → F → F
  | nan, _ => nan
  | _, nan => nan
  | finite a, finite b => finite (a + b)
  | finite _, inf => inf
  | finite _, neginf => neginf
  | inf, finite _ => inf
  | neginf, finite _ => neginf
  | inf, inf => inf
  | neginf, neginf => neginf
  | inf, neginf => nan
  | neginf, inf => nan

/-- IEEE subtraction, a - b = a + (-b). -/
def sub (a b : F) : F := add a (neg b)

/-- IEEE multiplication (finite multiplication exact). -/
def mul : F → F → F
  | nan, _ => nan
  | _, nan => nan
  | finite a, finite b => finite (a * b)
  | finite a, inf => if a > 0 then inf else if a < 0 then neginf else nan
  | finite a, neginf => if a > 0 then neginf else if a < 0 then inf else nan
  | inf, finite b => if b > 0 then inf else if b < 0 then neginf else nan
  | neginf, finite b => if b > 0 then neginf else if b < 0 then inf else nan
  | inf, inf => inf
  | neginf, neginf => inf
  | inf, neginf => neginf
  | neginf, inf => neginf

/-- IEEE division (finite division exact; division by the unsigned zero of
this model takes the sign of the numerator, 0/0 is NaN). -/
def div : F → F → F
  | nan, _ => nan
  | _, nan => nan
  | finite a, finite b =>
      if b = 0 then (if a > 0 then inf else if a < 0 then neginf else nan)
      else finite (a / b)
  | finite _, inf => finite 0
  | finite _, neginf => finite 0
  | inf, finite b => if b < 0 then neginf else inf
  | neginf, finite b => if b < 0 then inf else neginf
  | inf, inf => nan
  | inf, neginf => nan
  | neginf, inf => nan
  | neginf, neginf => nan

/-- Strict less-than as f64 PartialOrd: any comparison with NaN is false. -/
def lt : F → F → Bool
  | nan, _ => false
  | _, nan => false
  | finite a, finite b => decide (a < b)
  | finite _, inf => true
  | finite _, neginf => false
  | inf, finite _ => false
  | neginf, finite _ => true
  | inf, inf => false
  | neginf, neginf => false
  | inf, neginf => false
  | neginf, inf => true

/-- a > b as f64 PartialOrd. -/
def gt (a b : F) : Bool := lt b a

/-- f64::max: ignores a NaN argument, otherwise the numeric maximum. -/
def max (a b : F) : F :=
  match a, b with
  | nan, y => y
  | x, nan => x
  | x, y => if lt x y then y else x

/-- f64::min: ignores a NaN argument, otherwise the numeric minimum. -/
def min (a b : F) : F :=
  match a, b with
  | nan, y => y
  | x, nan => x
  | x, y => if lt y x then y else x

/-- f64 partial_cmp: None exactly when one side is NaN. -/
def partialCmp : F → F → Option Ordering
  | nan, _ => none
  | _, nan => none
  | finite a, finite b =>
      some (if a < b then Ordering.lt else if a = b then Ordering.eq else Ordering.gt)
  | finite _, inf => some Ordering.lt
  | finite _, neginf => some Ordering.gt
  | inf, finite _ => some Ordering.gt
  | neginf, finite _ => some Ordering.lt
  | inf, inf => some Ordering.eq
  | neginf, neginf => some Ordering.eq
  | inf, neginf => some Ordering.gt
  | neginf, inf => some Ordering.lt

/-- Sum of a list of f64 values, folded left from 0.0 as Rust Iterator::sum. -/
def fsum (l : List F) : F := l.foldl add (finite 0)

end F

/-- RGB color, from src/image.rs (Color; u8 components modelled as Nat). -/
structure Color where
  r : ℕ
  g : ℕ
  b : ℕ
deriving Repr, DecidableEq

/-- A sample point, from src/graph.rs (PointType). -/
structure PointType where
  color : Option Color
  pos : Point2 F
deriving Repr, DecidableEq

/-- Running-average accumulator, from src/graph.rs (RunningAverage). -/
structure RunningAverage where
  amount : ℕ
  values : List F
deriving Repr, DecidableEq

namespace RunningAverage

/-- RunningAverage::push: average of the y values of the last
min(points.len(), amount) points of the given slice. -/
def push (ra : RunningAverage) (points : List PointType) : RunningAverage :=
  let take_amount := min points.length ra.amount
  let s := F.fsum (((points.map (fun p => p.pos.y)).reverse).take take_amount)
  let value := F.div s (F.finite take_amount)
  { ra with values := ra.values ++ [value] }

end RunningAverage

/-- Series builder, from src/graph.rs (GraphBuilder). -/
structure GraphBuilder where
  points : List PointType
  running_avg : Option RunningAverage
  lowest_point : Option F
  highest_point : Option F
deriving Repr, DecidableEq

/-- GraphBuilder::new. -/
def GraphBuilder.new (running_avg : Option ℕ) : GraphBuilder :=
  ⟨[], running_avg.map (fun amount => ⟨amount, []⟩), none, none⟩

/-- GraphBuilder::push: append the point and update the running extrema
(the comparisons are f64 PartialOrd comparisons, false on NaN). -/
def GraphBuilder.push (b : GraphBuilder) (p : PointType) : GraphBuilder :=
  let y := p.pos.y
  { b with
    points := b.points ++ [p]
    lowest_point :=
      some ((b.lowest_point.map (fun lowest => if F.gt lowest y then y else lowest)).getD y)
    highest_point :=
      some ((b.highest_point.map (fun highest => if F.lt highest y then y else highest)).getD y) }

/-- Insert one element into an already sorted list; none when a needed
comparison returns none (the expect in GraphBuilder::complete panics). -/
def insertOpt {α : Type} (cmp : α → α → Option Ordering) (a : α) : List α → Option (List α)
  | [] => some [a]
  | b :: l =>
    match cmp a b with
    | none => none
    | some Ordering.lt => some (a :: b :: l)
    | some _ => (insertOpt cmp a l).map (fun l2 => b :: l2)

/--
Comparison sort with a partial comparator, modelling
sort_unstable_by(partial_cmp(..).expect("values must be comparable")):
the result is none exactly when the sort invokes the comparator on an
incomparable pair.  Any correct deterministic comparison sort compares every
element of a slice of length at least 2 at least once, and a slice of length
at most 1 performs no comparison at all, so for the NaN-panic analysis the
insertion sort used here agrees with the Rust standard-library sort.
-/
def sortOpt {α : Type} (cmp : α → α → Option Ordering) : List α → Option (List α)
  | [] => some []
  | a :: l => (sortOpt cmp l).bind (insertOpt cmp a)

/-- A completed series, from src/graph.rs (Graph, a wrapper over its builder). -/
structure Graph where
  builder : GraphBuilder
deriving Repr, DecidableEq

namespace Graph

/-- Graph::lowest. -/
def lowest (g : Graph) : Option F := g.builder.lowest_point

/-- Graph::highest. -/
def highest (g : Graph) : Option F := g.builder.highest_point

/-- Graph::last. -/
def last (g : Graph) : Option PointType := g.builder.points.getLast?

/-- Graph::points_slice. -/
def points_slice (g : Graph) : List PointType := g.builder.points

/-- Graph::averages. -/
def averages (g : Graph) : Option (List F) :=
  g.builder.running_avg.map (fun ra => ra.values)

end Graph

/-- GraphBuilder::complete: sort by x with the panicking comparator, then
feed every strict prefix of the sorted points to the running average. -/
def GraphBuilder.completeOpt (b : GraphBuilder) : Option Graph :=
  match sortOpt (fun a b => F.partialCmp a.pos.x b.pos.x) b.points with
  | none => none
  | some sorted =>
    let ra := b.running_avg.map (fun ra0 =>
      (List.range sorted.length).foldl (fun ra x => ra.push (sorted.take x)) ra0)
    some ⟨{ b with points := sorted, running_avg := ra }⟩

/-- Resolved configuration, from src/graph.rs (GrapherConfig).  The font field
(the glyph table of src/font.rs) is omitted: it is consumed only by the text
rendering, which no claim mentions. -/
structure GrapherConfig where
  log_scale : Option F
  min_avg : Option F
  min_height : Option F
  max_height : Option F
  running_avg : Option ℕ
  plot_line : Bool
deriving Repr, DecidableEq

/-- GrapherConfig::default (plot_line false, every override unset). -/
def GrapherConfig.default : GrapherConfig := ⟨none, none, none, none, none, false⟩

/-- Axis-frame state, from src/graph.rs (Grapher). -/
structure Grapher where
  top : F
  bottom : F
  left : F
  right : F
  config : GrapherConfig
  graphs : List Graph
deriving Repr, DecidableEq

namespace Grapher

/-- Grapher::new: top/left/right start at 0, bottom at f64::MAX. -/
def new (config : GrapherConfig) : Grapher :=
  ⟨F.finite 0, F.finite F.f64MAX, F.finite 0, F.finite 0, config, []⟩

end Grapher

/-- f64::abs (NaN stays NaN, infinities map to +infinity). -/
def F.abs : F → F
  | F.finite q => F.finite |q|
  | F.inf => F.inf
  | F.neginf => F.inf
  | F.nan => F.nan

/--
Grapher::fit_graph: extend right with the last x, fold the per-point loop
(top update, conditional average accumulation, running lowest), then apply
the bottom heuristic.
-/
def Grapher.fitGraph (g : Grapher) (graph : Graph) : Grapher :=
  let g :=
    match graph.last with
    | some last => { g with right := F.max g.right last.pos.x }
    | none => g
  let st := graph.points_slice.foldl
    (fun (st : F × F × F) point =>
      let top :=
        match g.config.max_height with
        | some max_height => max_height
        | none => F.max st.1 point.pos.y
      let average :=
        if g.config.min_avg.isSome then F.add st.2.1 point.pos.y else st.2.1
      (top, average, F.min st.2.2 point.pos.y))
    (g.top, F.finite 0, F.finite F.f64MAX)
  let g := { g with top := st.1 }
  let lowest := st.2.2
  match g.config.min_height with
  | some min_height => { g with bottom := min_height }
  | none =>
    if F.gt g.bottom lowest then
      { g with bottom :=
          match g.config.min_avg with
          | some scale =>
            let average := F.div st.2.1 (F.finite graph.points_slice.length)
            let diff := F.abs (F.sub average lowest)
            F.sub lowest (F.mul diff scale)
          | none => lowest }
    else g

/-- One input line of a series file after lexing: either a step directive or
a bare sample (Grapher::parse works line by line on these two forms; the
string-to-f64 conversion itself is the standard library's and stays outside
the model). -/
inductive SrcLine where
  | step : F → SrcLine
  | sample : F → SrcLine
deriving Repr, DecidableEq

/-- The per-line state of Grapher::parse: current x increment, current x,
and the builder accumulating points. -/
structure ParseSt where
  x_step : F
  x : F
  builder : GraphBuilder
deriving Repr, DecidableEq

/-- One iteration of the line loop of Grapher::parse: a step directive resets
x_step, a sample advances x by x_step and pushes the point (no color). -/
def parseLine (st : ParseSt) : SrcLine → ParseSt
  | SrcLine.step s => { st with x_step := s }
  | SrcLine.sample v =>
    let x := F.add st.x st.x_step
    { st with x := x, builder := st.builder.push ⟨none, ⟨x, v⟩⟩ }

/-- The initial state of Grapher::parse: x_step = 1.0 (the default step),
x = 0.0, fresh builder with the configured running-average window. -/
def ParseSt.init (running_avg : Option ℕ) : ParseSt :=
  ⟨F.finite 1, F.finite 0, GraphBuilder.new running_avg⟩

/-- Grapher::parse on lexed lines: run the line loop, complete the builder
(none when the sort comparator panics), fit and append the graph. -/
def Grapher.parseLines (g : Grapher) (lines : List SrcLine) : Option Grapher :=
  let st := lines.foldl parseLine (ParseSt.init g.config.running_avg)
  st.builder.completeOpt.map (fun graph =>
    let g := g.fitGraph graph
    { g with graphs := g.graphs ++ [graph] })

/-- f64::MAX dominates the small constants appearing in the verified runs. -/
theorem F.sixteen_lt_f64MAX : (16 : ℚ) < F.f64MAX := by
  have h1 : (2 : ℚ) ^ 5 ≤ 2 ^ 971 := by
    exact pow_le_pow_right₀ one_le_two (by norm_num)
  have h2 : (1 : ℚ) ≤ 2 ^ 53 - 1 := by norm_num
  calc (16 : ℚ) < 1 * 2 ^ 5 := by norm_num
    _ ≤ (2 ^ 53 - 1) * 2 ^ 971 :=
        mul_le_mul h2 h1 (by positivity) (by linarith)
    _ = F.f64MAX := rfl

/-- Comparing the initial bottom (f64::MAX) against a small value. -/
theorem F.gt_f64MAX (c : ℚ) (h : c ≤ 16) :
    F.gt (F.finite F.f64MAX) (F.finite c) = true := by
  simp only [F.gt, F.lt, decide_eq_true_eq]
  exact lt_of_le_of_lt h F.sixteen_lt_f64MAX

/-- Taking the running minimum out of the initial f64::MAX. -/
theorem F.min_f64MAX (c : ℚ) (h : c ≤ 16) :
    F.min (F.finite F.f64MAX) (F.finite c) = F.finite c := by
  simp only [F.min, F.lt, decide_eq_true_eq]
  rw [if_pos (lt_of_le_of_lt h F.sixteen_lt_f64MAX)]

/-- max on two finite values reduces to the rational maximum. -/
theorem F.max_finite (a b : ℚ) :
    F.max (F.finite a) (F.finite b) = if a < b then F.finite b else F.finite a := by
  simp [F.max, F.lt]

/-- min on two finite values reduces to the rational minimum. -/
theorem F.min_finite (a b : ℚ) :
    F.min (F.finite a) (F.finite b) = if b < a then F.finite b else F.finite a := by
  simp [F.min, F.lt]

/-- Strict greater-than on two finite values. -/
theorem F.gt_finite (a b : ℚ) : F.gt (F.finite a) (F.finite b) = decide (b < a) := rfl

/-- A small constant is below f64::MAX (propositional form for rewriting). -/
theorem F.lt_f64MAX_iff (c : ℚ) (h : c ≤ 16) : (c < F.f64MAX) = True := by
  simp [lt_of_le_of_lt h F.sixteen_lt_f64MAX]

/-- f64::MAX is not below a small constant (propositional form). -/
theorem F.f64MAX_lt_iff (c : ℚ) (h : c ≤ 16) : (F.f64MAX < c) = False := by
  simp
  exact le_of_lt (lt_of_le_of_lt h F.sixteen_lt_f64MAX)

/-- Adding a sample to x = 0.0 gives the step value back, for every f64 step. -/
theorem F.zero_add_eq (s : F) : F.add (F.finite 0) s = s := by
  cases s <;> simp [F.add]

/-- The line loop of Grapher::parse only appends points: the points already
pushed stay as a prefix of the builder under any further lines. -/
theorem parse_points_prefix (rest : List SrcLine) :
    ∀ st : ParseSt, ∃ tail,
      (List.foldl parseLine st rest).builder.points = st.builder.points ++ tail := by
  induction rest with
  | nil => intro st; exact ⟨[], by simp⟩
  | cons line rest ih =>
    intro st
    obtain ⟨tail, htail⟩ := ih (parseLine st line)
    cases line with
    | step s => exact ⟨tail, by simpa [parseLine] using htail⟩
    | sample v =>
      refine ⟨⟨none, ⟨F.add st.x st.x_step, v⟩⟩ :: tail, ?_⟩
      simpa [parseLine, GraphBuilder.push] using htail

/--
C1.  Parsing the lines step 2, 1.0, 3.0, 5.0 into a fresh Grapher with no
overrides yields exactly the points (2,1), (4,3), (6,5) in that order, and
after fitting the frame is left=0, right=6, bottom=1, top=5.  In general a
sample line places its point at x += current x_step (and advances x), the
initial parse state has x = 0 and the default step 1.0, and the first sample
after a step directive lands at x = step.
-/
theorem claim_C1 :
    ((Grapher.parseLines (Grapher.new GrapherConfig.default)
        [SrcLine.step (F.finite 2), SrcLine.sample (F.finite 1),
         SrcLine.sample (F.finite 3), SrcLine.sample (F.finite 5)]).map
      (fun g => (g.graphs.map (fun gr => gr.points_slice.map (fun p => p.pos)),
                 g.left, g.right, g.bottom, g.top))) =
      some ([[⟨F.finite 2, F.finite 1⟩, ⟨F.finite 4, F.finite 3⟩,
              ⟨F.finite 6, F.finite 5⟩]],
            F.finite 0, F.finite 6, F.finite 1, F.finite 5)
    ∧ (∀ (st : ParseSt) (v : F),
        (parseLine st (SrcLine.sample v)).builder.points =
            st.builder.points ++ [⟨none, ⟨F.add st.x st.x_step, v⟩⟩]
          ∧ (parseLine st (SrcLine.sample v)).x = F.add st.x st.x_step)
    ∧ (∀ running_avg : Option ℕ, (ParseSt.init running_avg).x_step = F.finite 1
          ∧ (ParseSt.init running_avg).x = F.finite 0)
    ∧ (∀ (s v : F) (rest : List SrcLine) (running_avg : Option ℕ),
        ((List.foldl parseLine (ParseSt.init running_avg)
            ([SrcLine.step s, SrcLine.sample v] ++ rest)).builder.points.head?) =
          some ⟨none, ⟨s, v⟩⟩) := by
  refine ⟨?_, ?_, ?_, ?_⟩
  · norm_num [Grapher.parseLines, Grapher.new, GrapherConfig.default, ParseSt.init,
      parseLine, GraphBuilder.new, GraphBuilder.push, GraphBuilder.completeOpt,
      sortOpt, insertOpt, F.partialCmp, F.add, F.gt_f64MAX, F.min_f64MAX,
      F.lt_f64MAX_iff, F.f64MAX_lt_iff, F.max_finite, F.min_finite, F.gt_finite,
      Grapher.fitGraph, Graph.last, Graph.points_slice]
  · intro st v
    exact ⟨by simp [parseLine, GraphBuilder.push], rfl⟩
  · intro running_avg; exact ⟨rfl, rfl⟩
  · intro s v rest running_avg
    have hst : List.foldl parseLine (ParseSt.init running_avg)
        [SrcLine.step s, SrcLine.sample v] =
        ⟨s, F.add (F.finite 0) s,
         { points := [⟨none, ⟨F.add (F.finite 0) s, v⟩⟩],
           running_avg := running_avg.map (fun amount => ⟨amount, []⟩),
           lowest_point := some v, highest_point := some v }⟩ := by
      simp [parseLine, ParseSt.init, GraphBuilder.new, GraphBuilder.push]
    rw [List.foldl_append, hst]
    obtain ⟨tail, htail⟩ := parse_points_prefix rest _
    rw [htail]
    simp [F.zero_add_eq]

/-- Inserting into a sorted list succeeds and permutes when every needed
comparison is defined. -/
theorem insertOpt_some {α : Type} (cmp : α → α → Option Ordering) (a : α) :
    ∀ l : List α, (∀ b ∈ l, (cmp a b).isSome) →
      ∃ l', insertOpt cmp a l = some l' ∧ l'.Perm (a :: l) := by
  intro l
  induction l with
  | nil => intro _; exact ⟨[a], rfl, List.Perm.refl _⟩
  | cons b l ih =>
    intro h
    have hb : (cmp a b).isSome := h b (List.mem_cons_self b l)
    obtain ⟨o, ho⟩ := Option.isSome_iff_exists.mp hb
    rcases o with _ | _ | _
    · refine ⟨a :: b :: l, ?_, List.Perm.refl _⟩
      simp [insertOpt, ho]
    · obtain ⟨l', hl', hperm⟩ := ih (fun c hc => h c (List.mem_cons_of_mem b hc))
      refine ⟨b :: l', ?_, ?_⟩
      · simp [insertOpt, ho, hl']
      · exact (hperm.cons b).trans (List.Perm.swap a b l)
    · obtain ⟨l', hl', hperm⟩ := ih (fun c hc => h c (List.mem_cons_of_mem b hc))
      refine ⟨b :: l', ?_, ?_⟩
      · simp [insertOpt, ho, hl']
      · exact (hperm.cons b).trans (List.Perm.swap a b l)

/-- The sort succeeds and permutes its input when the comparator is defined
on every pair (in particular when no sort key is NaN). -/
theorem sortOpt_some {α : Type} (cmp : α → α → Option Ordering) :
    ∀ l : List α, (∀ a ∈ l, ∀ b ∈ l, (cmp a b).isSome) →
      ∃ l', sortOpt cmp l = some l' ∧ l'.Perm l := by
  intro l
  induction l with
  | nil => intro _; exact ⟨[], rfl, List.Perm.refl _⟩
  | cons a l ih =>
    intro h
    obtain ⟨l', hl', hperm⟩ := ih (fun x hx y hy =>
      h x (List.mem_cons_of_mem a hx) y (List.mem_cons_of_mem a hy))
    obtain ⟨l'', hl'', hperm'⟩ := insertOpt_some cmp a l' (fun b hb =>
      h a (List.mem_cons_self a l) b (List.mem_cons_of_mem a (hperm.mem_iff.mp hb)))
    refine ⟨l'', ?_, hperm'.trans (hperm.cons a)⟩
    simp [sortOpt, hl', hl'']

/-- A successful insertion grows the list by one element. -/
theorem insertOpt_length {α : Type} (cmp : α → α → Option Ordering) (a : α) :
    ∀ l l' : List α, insertOpt cmp a l = some l' → l'.length = l.length + 1 := by
  intro l
  induction l with
  | nil =>
    intro l' h
    simp only [insertOpt, Option.some.injEq] at h
    subst h; rfl
  | cons b t ih =>
    intro l' h
    simp only [insertOpt] at h
    rcases ho : cmp a b with _ | o
    · simp [ho] at h
    · rcases o with _ | _ | _ <;> simp only [ho] at h
      · injection h with h; subst h; simp
      · rcases hi : insertOpt cmp a t with _ | t' <;> simp [hi] at h
        subst h; simp [ih t' hi]
      · rcases hi : insertOpt cmp a t with _ | t' <;> simp [hi] at h
        subst h; simp [ih t' hi]

/-- A successful sort preserves the length. -/
theorem sortOpt_length {α : Type} (cmp : α → α → Option Ordering) :
    ∀ l l' : List α, sortOpt cmp l = some l' → l'.length = l.length := by
  intro l
  induction l with
  | nil =>
    intro l' h
    simp only [sortOpt, Option.some.injEq] at h
    subst h; rfl
  | cons a t ih =>
    intro l' h
    simp only [sortOpt] at h
    rcases hs : sortOpt cmp t with _ | t' <;> simp [hs] at h
    rw [insertOpt_length cmp a t' l' h, ih t' hs]
    simp

/--
When the comparator is undefined exactly on bad elements, sorting a list of
at least two elements one of which is bad necessarily hits an undefined
comparison: the panic of the expect in GraphBuilder::complete.
-/
theorem sortOpt_none_of_bad {α : Type} (cmp : α → α → Option Ordering) (bad : α → Bool)
    (hcmp : ∀ a b, cmp a b = none ↔ (bad a = true ∨ bad b = true)) :
    ∀ l : List α, 2 ≤ l.length → (∃ a ∈ l, bad a = true) → sortOpt cmp l = none := by
  intro l
  induction l with
  | nil => intro h; simp at h
  | cons a t ih =>
    intro hlen hbad
    simp only [sortOpt]
    rcases hs : sortOpt cmp t with _ | t'
    · rfl
    have ht' : t'.length = t.length := sortOpt_length cmp t t' hs
    have htne : t ≠ [] := by
      intro he; rw [he] at hlen; simp at hlen
    rcases hc : t' with _ | ⟨c, rest⟩
    · rw [hc] at ht'
      exact absurd (List.length_eq_zero.mp ht'.symm) htne
    rcases hbad with ⟨x, hx, hbadx⟩
    rcases List.mem_cons.mp hx with hxa | hxt
    · have : cmp a c = none := (hcmp a c).mpr (Or.inl (hxa ▸ hbadx))
      simp [insertOpt, this]
    · by_cases h2 : 2 ≤ t.length
      · rw [ih h2 ⟨x, hxt, hbadx⟩] at hs; exact absurd hs (by simp)
      · have h1 : t.length = 1 := by
          rcases t with _ | ⟨y, _ | _⟩ <;> simp_all
        obtain ⟨y, hy⟩ := List.length_eq_one.mp h1
        rw [hy] at hs
        have hty : t' = [y] := by
          simp [sortOpt, insertOpt] at hs
          exact hs.symm
        rw [hty] at hc
        injection hc with hcy hrest
        rw [hy] at hxt
        have hxy : x = y := by simpa using hxt
        have hcac : cmp a c = none :=
          (hcmp a c).mpr (Or.inr (by rw [← hcy, ← hxy]; exact hbadx))
        simp [insertOpt, hcac]

/-- Embed a rational sample into the point type (no explicit color, as
Grapher::parse pushes them). -/
def embedPt (p : ℚ × ℚ) : PointType := ⟨none, ⟨F.finite p.1, F.finite p.2⟩⟩

/-- Push a list of rational samples through GraphBuilder::push. -/
def mkBuilder (running_avg : Option ℕ) (pts : List (ℚ × ℚ)) : GraphBuilder :=
  pts.foldl (fun b p => b.push (embedPt p)) (GraphBuilder.new running_avg)

/-- Grapher::from_graphs: fit every graph, then store the list. -/
def Grapher.fromGraphs (graphs : List Graph) (config : GrapherConfig) : Grapher :=
  let g := graphs.foldl Grapher.fitGraph (Grapher.new config)
  { g with graphs := graphs }

/-- Folding a pair-valued step whose first component ignores the rest of the
state projects to the fold of the first component. -/
theorem foldl_fst_independent {α β γ : Type} (l : List γ) (f : α → γ → α)
    (h : α × β → γ → β) :
    ∀ (a : α) (b : β),
      (l.foldl (fun st p => (f st.1 p, h st p)) (a, b)).1 = l.foldl f a := by
  induction l with
  | nil => intro a b; rfl
  | cons p rest ih => intro a b; exact ih (f a p) (h (a, b) p)

/-- fit_graph never changes the configuration. -/
theorem fitGraph_config (g : Grapher) (graph : Graph) :
    (g.fitGraph graph).config = g.config := by
  unfold Grapher.fitGraph
  cases graph.last <;> cases hmh : g.config.min_height <;> simp [hmh] <;>
    repeat' split <;> try simp

/-- The top produced by fit_graph is the first component of its point fold. -/
theorem fitGraph_top_raw (g : Grapher) (graph : Graph) :
    (g.fitGraph graph).top =
      (graph.points_slice.foldl
        (fun st point =>
          (match g.config.max_height with
           | some max_height => max_height
           | none => F.max st.1 point.pos.y,
           (if g.config.min_avg.isSome then F.add st.2.1 point.pos.y else st.2.1),
           F.min st.2.2 point.pos.y))
        (g.top, F.finite 0, F.finite F.f64MAX)).1 := by
  unfold Grapher.fitGraph
  cases graph.last <;> cases hmin : g.config.min_height <;>
    simp [hmin, apply_ite Grapher.top] <;> repeat' split <;> simp_all

/-- fit_graph updates top by folding the per-point top rule over the points:
the override wins unconditionally, otherwise a running f64::max. -/
theorem fitGraph_top (g : Grapher) (graph : Graph) :
    (g.fitGraph graph).top = graph.points_slice.foldl
      (fun t point =>
        match g.config.max_height with
        | some max_height => max_height
        | none => F.max t point.pos.y) g.top := by
  rw [fitGraph_top_raw]
  rcases hmh : g.config.max_height with _ | mh
  · simp only [hmh]
    exact foldl_fst_independent _ (fun t (point : PointType) => F.max t point.pos.y) _ _ _
  · simp only [hmh]
    exact foldl_fst_independent _ (fun _ (_ : PointType) => mh) _ _ _

/-- f64::max of two finite values is the rational maximum. -/
theorem F.max_fin_eq (a b : ℚ) :
    F.max (F.finite a) (F.finite b) = F.finite (Max.max a b) := by
  rw [F.max_finite]
  rcases lt_or_le a b with h | h
  · rw [if_pos h, max_eq_right h.le]
  · rw [if_neg (not_lt.mpr h), max_eq_left h]

/-- Characterization of the running f64::max fold over finite samples:
it returns a finite bound dominating the seed and every sample, and the
bound is the seed or one of the samples. -/
theorem topfold_char (pts : List PointType) :
    ∀ q : ℚ, (∀ p ∈ pts, ∃ c : ℚ, p.pos.y = F.finite c) →
    ∃ M : ℚ, pts.foldl (fun t point => F.max t point.pos.y) (F.finite q) = F.finite M
      ∧ q ≤ M ∧ (∀ p ∈ pts, ∀ c : ℚ, p.pos.y = F.finite c → c ≤ M)
      ∧ (M = q ∨ ∃ p ∈ pts, p.pos.y = F.finite M) := by
  induction pts with
  | nil =>
    intro q _
    exact ⟨q, rfl, le_refl q, by simp, Or.inl rfl⟩
  | cons p rest ih =>
    intro q hfin
    obtain ⟨c, hc⟩ := hfin p (List.mem_cons_self p rest)
    obtain ⟨M, hM, hle, hbound, hatt⟩ := ih (Max.max q c)
      (fun x hx => hfin x (List.mem_cons_of_mem p hx))
    refine ⟨M, ?_, le_trans (le_max_left q c) hle, ?_, ?_⟩
    · rw [List.foldl_cons, hc, F.max_fin_eq]
      exact hM
    · intro x hx cx hcx
      rcases List.mem_cons.mp hx with hxp | hxr
      · have hcc : cx = c := by
          apply F.finite.inj
          rw [← hcx, hxp, hc]
        rw [hcc]
        exact le_trans (le_max_right q c) hle
      · exact hbound x hxr cx hcx
    · rcases hatt with hMq | ⟨x, hx, hxM⟩
      · rcases max_choice q c with hq | hc2
        · exact Or.inl (hMq.trans hq)
        · refine Or.inr ⟨p, List.mem_cons_self p rest, ?_⟩
          rw [hc, hMq, hc2]
      · exact Or.inr ⟨x, List.mem_cons_of_mem p hx, hxM⟩

/-- Folding a constant-valued step from its own value is that value. -/
theorem foldl_const_eventually {α : Type} (mh : F) :
    ∀ l : List α, l.foldl (fun _t _p => mh) mh = mh := by
  intro l
  induction l with
  | nil => rfl
  | cons _ _ ih => exact ih

/-- Folding a constant-valued step over a nonempty list gives the constant. -/
theorem foldl_const_top {α : Type} (mh t0 : F) (l : List α) (h : l ≠ []) :
    l.foldl (fun _t _p => mh) t0 = mh := by
  cases l with
  | nil => exact absurd rfl h
  | cons _ _ => exact foldl_const_eventually mh _

/-- Folding fit_graph over graphs never changes the configuration. -/
theorem graphs_fold_config (graphs : List Graph) :
    ∀ g0 : Grapher, (graphs.foldl Grapher.fitGraph g0).config = g0.config := by
  induction graphs with
  | nil => intro g0; rfl
  | cons gr rest ih =>
    intro g0
    rw [List.foldl_cons, ih (g0.fitGraph gr), fitGraph_config]

/-- Without a max_height override the folded top is finite, dominates the
seed and every (finite) sample y, and is attained at the seed or a sample. -/
theorem grapherTop_char (graphs : List Graph) :
    ∀ g0 : Grapher, g0.config.max_height = none →
    (∀ gr ∈ graphs, ∀ p ∈ gr.points_slice, ∃ c : ℚ, p.pos.y = F.finite c) →
    ∀ q0 : ℚ, g0.top = F.finite q0 →
    ∃ M : ℚ, (graphs.foldl Grapher.fitGraph g0).top = F.finite M
      ∧ q0 ≤ M
      ∧ (∀ gr ∈ graphs, ∀ p ∈ gr.points_slice, ∀ c : ℚ, p.pos.y = F.finite c → c ≤ M)
      ∧ (M = q0 ∨ ∃ gr ∈ graphs, ∃ p ∈ gr.points_slice, p.pos.y = F.finite M) := by
  induction graphs with
  | nil =>
    intro g0 _ _ q0 h0
    exact ⟨q0, h0, le_refl _, by simp, Or.inl rfl⟩
  | cons gr rest ih =>
    intro g0 hmax hfin q0 h0
    have htop1 := fitGraph_top g0 gr
    simp only [hmax] at htop1
    rw [h0] at htop1
    obtain ⟨M1, hM1, hq1, hb1, ha1⟩ :=
      topfold_char gr.points_slice q0 (hfin gr (List.mem_cons_self gr rest))
    obtain ⟨M, hM, hle, hbound, hatt⟩ := ih (g0.fitGraph gr)
      (by rw [fitGraph_config]; exact hmax)
      (fun x hx => hfin x (List.mem_cons_of_mem gr hx))
      M1 (htop1.trans hM1)
    refine ⟨M, by simpa using hM, le_trans hq1 hle, ?_, ?_⟩
    · intro x hx p hp c hc
      rcases List.mem_cons.mp hx with hxg | hxr
      · exact le_trans (hb1 p (hxg ▸ hp) c hc) hle
      · exact hbound x hxr p hp c hc
    · rcases hatt with hMM1 | ⟨x, hx, p, hp, hpy⟩
      · rcases ha1 with hM1q | ⟨p, hp, hpy⟩
        · exact Or.inl (hMM1.trans hM1q)
        · exact Or.inr ⟨gr, List.mem_cons_self gr rest, p, hp, by rw [hpy, hMM1]⟩
      · exact Or.inr ⟨x, List.mem_cons_of_mem gr hx, p, hp, hpy⟩

/-- With a max_height override and at least one nonempty ingested series,
the folded top is exactly the override. -/
theorem grapherTop_override (mh : F) (graphs : List Graph) :
    ∀ g0 : Grapher, g0.config.max_height = some mh → graphs ≠ [] →
    (∀ gr ∈ graphs, gr.points_slice ≠ []) →
    (graphs.foldl Grapher.fitGraph g0).top = mh := by
  induction graphs with
  | nil => intro g0 _ h _; exact absurd rfl h
  | cons gr rest ih =>
    intro g0 hmax _ hall
    have htop1 := fitGraph_top g0 gr
    simp only [hmax] at htop1
    rw [foldl_const_top mh g0.top _ (hall gr (List.mem_cons_self gr rest))] at htop1
    cases rest with
    | nil => simpa using htop1
    | cons r2 rest2 =>
      rw [List.foldl_cons]
      exact ih (g0.fitGraph gr) (by rw [fitGraph_config]; exact hmax) (by simp)
        (fun x hx => hall x (List.mem_cons_of_mem gr hx))

/-- Pushing a list of embedded samples appends them to the builder points. -/
theorem foldl_push_points (pts : List (ℚ × ℚ)) :
    ∀ b : GraphBuilder,
      (pts.foldl (fun b p => b.push (embedPt p)) b).points
        = b.points ++ pts.map embedPt := by
  induction pts with
  | nil => intro b; simp
  | cons p rest ih =>
    intro b
    rw [List.foldl_cons, ih]
    simp [GraphBuilder.push]

/-- The builder built from rational samples holds exactly their embeddings. -/
theorem mkBuilder_points (ra : Option ℕ) (pts : List (ℚ × ℚ)) :
    (mkBuilder ra pts).points = pts.map embedPt := by
  simp [mkBuilder, foldl_push_points, GraphBuilder.new]

/-- Completing a builder of rational samples never panics, and the completed
points are a permutation of the pushed ones. -/
theorem completeOpt_rat (ra : Option ℕ) (pts : List (ℚ × ℚ)) :
    ∃ graph : Graph, (mkBuilder ra pts).completeOpt = some graph
      ∧ graph.points_slice.Perm (pts.map embedPt) := by
  have hsome : ∀ a ∈ pts.map embedPt, ∀ b ∈ pts.map embedPt,
      (F.partialCmp a.pos.x b.pos.x).isSome := by
    intro a ha b hb
    obtain ⟨pa, _, hpa⟩ := List.mem_map.mp ha
    obtain ⟨pb, _, hpb⟩ := List.mem_map.mp hb
    rw [← hpa, ← hpb]
    simp [embedPt, F.partialCmp]
  obtain ⟨l', hl', hperm⟩ := sortOpt_some _ (pts.map embedPt) hsome
  refine ⟨⟨{ mkBuilder ra pts with
      points := l',
      running_avg := (mkBuilder ra pts).running_avg.map (fun ra0 =>
        (List.range l'.length).foldl (fun r x => r.push (l'.take x)) ra0) }⟩, ?_, hperm⟩
  simp only [GraphBuilder.completeOpt, mkBuilder_points, hl']

/-- mapM over Option succeeds when every element succeeds, pairing inputs
with outputs. -/
theorem mapM_some_of_all {α β : Type} (f : α → Option β) :
    ∀ l : List α, (∀ a ∈ l, ∃ b, f a = some b) →
    ∃ l' : List β, l.mapM f = some l'
      ∧ List.Forall₂ (fun a b => f a = some b) l l' := by
  intro l
  induction l with
  | nil => intro _; exact ⟨[], rfl, List.Forall₂.nil⟩
  | cons a t ih =>
    intro h
    obtain ⟨b, hb⟩ := h a (List.mem_cons_self a t)
    obtain ⟨t', ht', hf⟩ := ih (fun x hx => h x (List.mem_cons_of_mem a hx))
    refine ⟨b :: t', ?_, List.Forall₂.cons hb hf⟩
    rw [List.mapM_cons, hb, ht']
    rfl

/-- Every right element of a Forall₂ has a related left element. -/
theorem forall2_mem_right {α β : Type} {R : α → β → Prop} :
    ∀ {l : List α} {l' : List β}, List.Forall₂ R l l' →
      ∀ b ∈ l', ∃ a ∈ l, R a b := by
  intro l l' h
  induction h with
  | nil => intro b hb; simp at hb
  | cons hR _ ih =>
    intro b hb
    rcases List.mem_cons.mp hb with hbe | hbm
    · exact ⟨_, List.mem_cons_self .., hbe ▸ hR⟩
    · obtain ⟨a, ha, hr⟩ := ih b hbm
      exact ⟨a, List.mem_cons_of_mem _ ha, hr⟩

/-- Every left element of a Forall₂ has a related right element. -/
theorem forall2_mem_left {α β : Type} {R : α → β → Prop} :
    ∀ {l : List α} {l' : List β}, List.Forall₂ R l l' →
      ∀ a ∈ l, ∃ b ∈ l', R a b := by
  intro l l' h
  induction h with
  | nil => intro a ha; simp at ha
  | cons hR _ ih =>
    intro a ha
    rcases List.mem_cons.mp ha with hae | ham
    · exact ⟨_, List.mem_cons_self .., hae ▸ hR⟩
    · obtain ⟨b, hb, hr⟩ := ih a ham
      exact ⟨b, List.mem_cons_of_mem _ hb, hr⟩
/--
C2 counterexample.  A single ingested series with one point (1, -1) and no
overrides: the maximum y across all series is -1, but after fitting the
frame top is 0 (the initial top f64::max-ed with every y), so the claim that
top equals the maximum y also for all-negative series is false.
-/
theorem claim_C2_counterexample :
    ((mkBuilder none [((1 : ℚ), (-1 : ℚ))]).completeOpt).map (fun graph =>
      (Grapher.fromGraphs [graph] GrapherConfig.default).top) = some (F.finite 0)
    ∧ F.finite 0 ≠ F.finite (-1) := by
  constructor
  · norm_num [mkBuilder, embedPt, GraphBuilder.new, GraphBuilder.push,
      GraphBuilder.completeOpt, sortOpt, insertOpt, F.partialCmp,
      Grapher.fromGraphs, Grapher.new, GrapherConfig.default,
      Grapher.fitGraph, Graph.last, Graph.points_slice,
      F.max_finite, F.min_finite, F.gt_finite, F.gt_f64MAX, F.min_f64MAX,
      F.lt_f64MAX_iff, F.f64MAX_lt_iff]
  · simp

/--
C2 (amended).  For every Grapher that has ingested one or more non-empty
rational series, after all fit_graph calls the frame top equals the
configured max_height override when present; otherwise it equals the maximum
of 0 (the initial top) and the maximum y across all points of all series:
it is finite, at least 0, dominates every y, and is 0 or an ingested y.
-/
theorem claim_C2_amended (cfg : GrapherConfig) (series : List (List (ℚ × ℚ)))
    (hne : series ≠ []) (hall : ∀ s ∈ series, s ≠ []) :
    ∃ graphs : List Graph,
      series.mapM (fun pts => (mkBuilder cfg.running_avg pts).completeOpt) = some graphs
      ∧ (match cfg.max_height with
         | some mh => (Grapher.fromGraphs graphs cfg).top = mh
         | none =>
           ∃ M : ℚ, (Grapher.fromGraphs graphs cfg).top = F.finite M
             ∧ 0 ≤ M
             ∧ (∀ s ∈ series, ∀ p ∈ s, p.2 ≤ M)
             ∧ (M = 0 ∨ ∃ s ∈ series, ∃ p ∈ s, p.2 = M)) := by
  obtain ⟨graphs, hmapM, hF2⟩ := mapM_some_of_all
    (fun pts => (mkBuilder cfg.running_avg pts).completeOpt) series
    (fun pts _ => by
      obtain ⟨graph, hg, _⟩ := completeOpt_rat cfg.running_avg pts
      exact ⟨graph, hg⟩)
  have hpair : ∀ gr ∈ graphs, ∃ s ∈ series, gr.points_slice.Perm (s.map embedPt) := by
    intro gr hgr
    obtain ⟨s, hs, hsome⟩ := forall2_mem_right hF2 gr hgr
    obtain ⟨graph, hg, hperm⟩ := completeOpt_rat cfg.running_avg s
    rw [hg] at hsome
    injection hsome with hgg
    exact ⟨s, hs, hgg ▸ hperm⟩
  refine ⟨graphs, hmapM, ?_⟩
  rcases hmh : cfg.max_height with _ | mh
  · -- no override: characterize the folded maximum
    have hfin : ∀ gr ∈ graphs, ∀ p ∈ gr.points_slice, ∃ c : ℚ, p.pos.y = F.finite c := by
      intro gr hgr p hp
      obtain ⟨s, _, hperm⟩ := hpair gr hgr
      obtain ⟨pr, _, hpr⟩ := List.mem_map.mp (hperm.mem_iff.mp hp)
      exact ⟨pr.2, by rw [← hpr]; rfl⟩
    obtain ⟨M, hM, h0M, hbound, hatt⟩ := grapherTop_char graphs (Grapher.new cfg)
      (by simpa [Grapher.new] using hmh) hfin 0 rfl
    refine ⟨M, ?_, h0M, ?_, ?_⟩
    · simpa [Grapher.fromGraphs] using hM
    · intro s hs p hp
      obtain ⟨gr, hgr, hsome⟩ := forall2_mem_left hF2 s hs
      obtain ⟨graph, hg, hperm⟩ := completeOpt_rat cfg.running_avg s
      rw [hg] at hsome
      injection hsome with hgg
      have hmem : embedPt p ∈ gr.points_slice := by
        rw [hgg] at hperm
        exact hperm.mem_iff.mpr (List.mem_map_of_mem embedPt hp)
      exact hbound gr hgr (embedPt p) hmem p.2 rfl
    · rcases hatt with h0 | ⟨gr, hgr, p, hp, hpy⟩
      · exact Or.inl h0
      · obtain ⟨s, hs, hperm⟩ := hpair gr hgr
        obtain ⟨pr, hpr, hpre⟩ := List.mem_map.mp (hperm.mem_iff.mp hp)
        refine Or.inr ⟨s, hs, pr, hpr, ?_⟩
        apply F.finite.inj
        rw [show F.finite pr.2 = (embedPt pr).pos.y from rfl, hpre, hpy]
  · -- override: every fit writes the override into top
    have hgne : graphs ≠ [] := by
      intro he
      rcases series with _ | ⟨s, rest⟩
      · exact hne rfl
      · rw [he] at hF2; cases hF2
    have hallg : ∀ gr ∈ graphs, gr.points_slice ≠ [] := by
      intro gr hgr
      obtain ⟨s, hs, hperm⟩ := hpair gr hgr
      intro he
      have hlen := hperm.length_eq
      rw [he] at hlen
      simp at hlen
      exact (hall s hs (List.length_eq_zero.mp hlen.symm)).elim
    show (Grapher.fromGraphs graphs cfg).top = mh
    have := grapherTop_override mh graphs (Grapher.new cfg)
      (by simpa [Grapher.new] using hmh) hgne hallg
    simpa [Grapher.fromGraphs] using this

/-- Witness for C2 (amended) at one concrete series. -/
theorem claim_C2_amended_witness :
    ∃ graphs : List Graph,
      [[((1 : ℚ), (2 : ℚ))]].mapM
        (fun pts => (mkBuilder GrapherConfig.default.running_avg pts).completeOpt)
          = some graphs
      ∧ (match GrapherConfig.default.max_height with
         | some mh => (Grapher.fromGraphs graphs GrapherConfig.default).top = mh
         | none =>
           ∃ M : ℚ, (Grapher.fromGraphs graphs GrapherConfig.default).top = F.finite M
             ∧ 0 ≤ M
             ∧ (∀ s ∈ [[((1 : ℚ), (2 : ℚ))]], ∀ p ∈ s, p.2 ≤ M)
             ∧ (M = 0 ∨ ∃ s ∈ [[((1 : ℚ), (2 : ℚ))]], ∃ p ∈ s, p.2 = M)) :=
  claim_C2_amended GrapherConfig.default [[((1 : ℚ), (2 : ℚ))]]
    (by simp) (by simp)
/-- f64 addition in this model is right-commutative (NaN is absorbing and
inf + (-inf) is NaN in every order). -/
theorem F.add_right_comm (z x y : F) :
    F.add (F.add z x) y = F.add (F.add z y) x := by
  rcases z with qz | _ | _ | _ <;> rcases x with qx | _ | _ | _ <;>
    rcases y with qy | _ | _ | _ <;> simp [F.add] <;> ring

/-- Sums in the exact model are invariant under permutation. -/
theorem F.fsum_perm {l l' : List F} (h : l.Perm l') : F.fsum l = F.fsum l' := by
  unfold F.fsum
  exact h.foldl_eq' (fun x _ y _ z => F.add_right_comm z x y) _

/-- Summing a reversed list gives the same value in the exact model. -/
theorem F.fsum_reverse (l : List F) : F.fsum l.reverse = F.fsum l :=
  F.fsum_perm (List.reverse_perm l)

/-- Folding RunningAverage::push over a list of slices appends one trailing
mean per slice: sum of the last min(len, window) y values over that count. -/
theorem ra_foldl_values (k : ℕ) (prefixes : List (List PointType)) :
    ∀ vs : List F,
      (prefixes.foldl (fun (r : RunningAverage) pts => r.push pts) (⟨k, vs⟩ : RunningAverage)).values
        = vs ++ prefixes.map (fun pts =>
            F.div
              (F.fsum (((pts.map (fun p => p.pos.y)).reverse).take
                (min pts.length k)))
              (F.finite ((min pts.length k : ℕ)))) := by
  induction prefixes with
  | nil => intro vs; simp
  | cons pts rest ih =>
    intro vs
    rw [List.foldl_cons]
    show (rest.foldl (fun (r : RunningAverage) pts => r.push pts)
      ((⟨k, vs⟩ : RunningAverage).push pts)).values = _
    rw [show ((⟨k, vs⟩ : RunningAverage).push pts) =
        ⟨k, vs ++ [F.div
          (F.fsum (((pts.map (fun p => p.pos.y)).reverse).take (min pts.length k)))
          (F.finite ((min pts.length k : ℕ)))]⟩ from rfl]
    rw [ih]
    simp

/-- GraphBuilder::push never touches the running-average accumulator. -/
theorem foldl_push_ra (pts : List (ℚ × ℚ)) :
    ∀ b : GraphBuilder,
      (pts.foldl (fun b p => b.push (embedPt p)) b).running_avg = b.running_avg := by
  induction pts with
  | nil => intro b; rfl
  | cons p rest ih => intro b; rw [List.foldl_cons, ih]; rfl

/--
C3.  With a running-average window k configured, every completed rational
series of length n has a sidecar of exactly n entries, and the entry at
point index i of the final sorted order is the mean of the y values of the
last min(k, i) already-inserted points (excluding the current one): for
i < k it averages exactly the first i prior points, for k <= i exactly the
last k prior y values.  (The i = 0 entry is the empty sum over zero, the
0/0 NaN of the code.)
-/
theorem claim_C3 (k : ℕ) (pts : List (ℚ × ℚ)) :
    ∃ (graph : Graph) (avgs : List F),
      (mkBuilder (some k) pts).completeOpt = some graph
      ∧ graph.averages = some avgs
      ∧ avgs.length = graph.points_slice.length
      ∧ graph.points_slice.length = pts.length
      ∧ (∀ i, (h : i < avgs.length) →
          (avgs.get ⟨i, h⟩ =
            F.div
              (F.fsum (((graph.points_slice.map (fun p => p.pos.y)).take i).drop
                (i - min k i)))
              (F.finite ((min k i : ℕ)))
          ∧ (i < k → avgs.get ⟨i, h⟩ =
              F.div (F.fsum ((graph.points_slice.map (fun p => p.pos.y)).take i))
                (F.finite i))
          ∧ (k ≤ i → avgs.get ⟨i, h⟩ =
              F.div
                (F.fsum (((graph.points_slice.map (fun p => p.pos.y)).take i).drop
                  (i - k)))
                (F.finite k)))) := by
  have hsome : ∀ a ∈ pts.map embedPt, ∀ b ∈ pts.map embedPt,
      (F.partialCmp a.pos.x b.pos.x).isSome := by
    intro a ha b hb
    obtain ⟨pa, _, hpa⟩ := List.mem_map.mp ha
    obtain ⟨pb, _, hpb⟩ := List.mem_map.mp hb
    rw [← hpa, ← hpb]
    simp [embedPt, F.partialCmp]
  obtain ⟨l', hl', hperm⟩ := sortOpt_some _ (pts.map embedPt) hsome
  have hra : (mkBuilder (some k) pts).running_avg = some ⟨k, []⟩ := by
    rw [mkBuilder, foldl_push_ra]
    rfl
  have hlen : l'.length = pts.length := by
    simpa using hperm.length_eq
  refine ⟨⟨{ mkBuilder (some k) pts with
      points := l',
      running_avg := some ((List.range l'.length).foldl
        (fun (r : RunningAverage) x => r.push (l'.take x)) ⟨k, []⟩) }⟩,
    ((List.range l'.length).foldl
      (fun (r : RunningAverage) x => r.push (l'.take x)) ⟨k, []⟩).values,
    ?_, ?_, ?_, ?_, ?_⟩
  · simp only [GraphBuilder.completeOpt, mkBuilder_points, hl', hra]
    rfl
  · simp [Graph.averages]
  · show ((List.range l'.length).foldl
        (fun (r : RunningAverage) x => r.push (l'.take x))
        (⟨k, []⟩ : RunningAverage)).values.length = l'.length
    rw [← List.foldl_map, ra_foldl_values]
    simp
  · exact hlen
  · intro i h
    simp only [Graph.points_slice]
    have hval : ((List.range l'.length).foldl
        (fun (r : RunningAverage) x => r.push (l'.take x))
        (⟨k, []⟩ : RunningAverage)).values
        = (List.range l'.length).map (fun x =>
            F.div
              (F.fsum ((((l'.take x).map (fun p => p.pos.y)).reverse).take
                (min (l'.take x).length k)))
              (F.finite ((min (l'.take x).length k : ℕ)))) := by
      rw [← List.foldl_map, ra_foldl_values]
      simp only [List.nil_append, List.map_map]
      rfl
    have hi : i < l'.length := by
      have h2 := h
      rw [hval] at h2
      simpa using h2
    have hgete : (((List.range l'.length).foldl
        (fun (r : RunningAverage) x => r.push (l'.take x))
        (⟨k, []⟩ : RunningAverage)).values).get ⟨i, h⟩
        = F.div
            (F.fsum ((((l'.take i).map (fun p => p.pos.y)).reverse).take
              (min (l'.take i).length k)))
            (F.finite ((min (l'.take i).length k : ℕ))) := by
      have h3 := List.get_of_eq hval ⟨i, h⟩
      rw [h3]
      simp
    have hlt : (l'.take i).length = i := by
      rw [List.length_take]
      exact min_eq_left (le_of_lt hi)
    rw [hlt] at hgete
    have htake2 : (l'.take i).map (fun p => p.pos.y)
        = (l'.map (fun p => p.pos.y)).take i := by
      rw [List.map_take]
    rw [htake2] at hgete
    have hlen2 : ((l'.map (fun p => p.pos.y)).take i).length = i := by
      rw [List.length_take, List.length_map]
      exact min_eq_left (le_of_lt hi)
    have hcomm : min i k = min k i := min_comm i k
    have htr : ((l'.map (fun p => p.pos.y)).take i).reverse.take (min i k)
        = (((l'.map (fun p => p.pos.y)).take i).drop (i - min i k)).reverse := by
      rw [List.take_reverse, hlen2]
    rw [htr, F.fsum_reverse] at hgete
    refine ⟨?_, ?_, ?_⟩
    · rw [hgete, hcomm]
    · intro hik
      have hm : min i k = i := min_eq_left (le_of_lt hik)
      rw [hgete, hm]
      simp
    · intro hki
      have hm : min i k = k := min_eq_right hki
      rw [hgete, hm]

/-- Witness for C3 at a concrete window and series. -/
theorem claim_C3_witness :
    ∃ (graph : Graph) (avgs : List F),
      (mkBuilder (some 2) [((1 : ℚ), (1 : ℚ)), ((2 : ℚ), (3 : ℚ)),
        ((3 : ℚ), (5 : ℚ))]).completeOpt = some graph
      ∧ graph.averages = some avgs
      ∧ avgs.length = graph.points_slice.length
      ∧ graph.points_slice.length =
          [((1 : ℚ), (1 : ℚ)), ((2 : ℚ), (3 : ℚ)), ((3 : ℚ), (5 : ℚ))].length
      ∧ (∀ i, (h : i < avgs.length) →
          (avgs.get ⟨i, h⟩ =
            F.div
              (F.fsum (((graph.points_slice.map (fun p => p.pos.y)).take i).drop
                (i - min 2 i)))
              (F.finite ((min 2 i : ℕ)))
          ∧ (i < 2 → avgs.get ⟨i, h⟩ =
              F.div (F.fsum ((graph.points_slice.map (fun p => p.pos.y)).take i))
                (F.finite i))
          ∧ (2 ≤ i → avgs.get ⟨i, h⟩ =
              F.div
                (F.fsum (((graph.points_slice.map (fun p => p.pos.y)).take i).drop
                  (i - 2)))
                (F.finite 2)))) :=
  claim_C3 2 [((1 : ℚ), (1 : ℚ)), ((2 : ℚ), (3 : ℚ)), ((3 : ℚ), (5 : ℚ))]
/-- partial_cmp is undefined exactly when one side is NaN. -/
theorem F.partialCmp_none_iff (a b : F) :
    F.partialCmp a b = none ↔ (a.isNaN = true ∨ b.isNaN = true) := by
  cases a <;> cases b <;> simp [F.partialCmp, F.isNaN]

/--
C10 counterexample.  The claim fails twice as stated: (1) a builder holding a
single point with NaN x completes without panicking, because sorting a
one-element slice never invokes the comparator; (2) the claimed precondition
is too weak: with the non-NaN steps +inf and -inf the sample x becomes
inf + (-inf) = NaN and ingestion panics even though no step is NaN.
-/
theorem claim_C10_counterexample :
    (((GraphBuilder.new none).push ⟨none, ⟨F.nan, F.finite 5⟩⟩).completeOpt).isSome = true
    ∧ Grapher.parseLines (Grapher.new GrapherConfig.default)
        [SrcLine.step F.inf, SrcLine.sample (F.finite 1),
         SrcLine.step F.neginf, SrcLine.sample (F.finite 2),
         SrcLine.sample (F.finite 3)] = none
    ∧ F.inf.isNaN = false ∧ F.neginf.isNaN = false := by
  refine ⟨?_, ?_, rfl, rfl⟩
  · rfl
  · norm_num [Grapher.parseLines, Grapher.new, GrapherConfig.default, ParseSt.init,
      parseLine, GraphBuilder.new, GraphBuilder.push, GraphBuilder.completeOpt,
      sortOpt, insertOpt, F.partialCmp, F.add, F.lt]

/-- When every step directive carries a finite value, the parse state keeps
a finite x and x_step and every pushed point has a non-NaN x. -/
theorem parse_state_invariant (lines : List SrcLine)
    (hstep : ∀ s, SrcLine.step s ∈ lines → ∃ q, s = F.finite q) :
    ∀ st : ParseSt,
      (∃ q, st.x = F.finite q) → (∃ q, st.x_step = F.finite q) →
      (∀ p ∈ st.builder.points, p.pos.x.isNaN = false) →
      (∃ q, (List.foldl parseLine st lines).x = F.finite q)
      ∧ (∃ q, (List.foldl parseLine st lines).x_step = F.finite q)
      ∧ (∀ p ∈ (List.foldl parseLine st lines).builder.points,
          p.pos.x.isNaN = false) := by
  induction lines with
  | nil => intro st hx hs hp; exact ⟨hx, hs, hp⟩
  | cons line rest ih =>
    intro st hx hs hp
    have hstep' : ∀ s, SrcLine.step s ∈ rest → ∃ q, s = F.finite q :=
      fun s hsm => hstep s (List.mem_cons_of_mem _ hsm)
    cases line with
    | step s =>
      obtain ⟨q, hq⟩ := hstep s (List.mem_cons_self _ _)
      exact ih hstep' _ hx ⟨q, by simp [parseLine, hq]⟩ hp
    | sample v =>
      obtain ⟨qx, hqx⟩ := hx
      obtain ⟨qs, hqs⟩ := hs
      apply ih hstep'
      · exact ⟨qx + qs, by simp [parseLine, hqx, hqs, F.add]⟩
      · exact ⟨qs, by simpa [parseLine] using hqs⟩
      · intro p hpm
        simp only [parseLine, GraphBuilder.push] at hpm
        rcases List.mem_append.mp hpm with hold | hnew
        · exact hp p hold
        · have : p = ⟨none, ⟨F.add st.x st.x_step, v⟩⟩ := by simpa using hnew
          rw [this, hqx, hqs]
          simp [F.add, F.isNaN]

/--
C10 (amended).  GraphBuilder::complete panics (the expect on the partial
comparison) whenever at least two points were pushed and some pushed point
has a NaN x; that is reachable through ingestion with a step nan directive
followed by two samples; and under the precondition that every step value is
finite (non-NaN and non-infinite) all x coordinates are non-NaN and the
panic branch is unreachable.
-/
theorem claim_C10_amended :
    (∀ b : GraphBuilder, 2 ≤ b.points.length →
      (∃ p ∈ b.points, p.pos.x.isNaN = true) → b.completeOpt = none)
    ∧ Grapher.parseLines (Grapher.new GrapherConfig.default)
        [SrcLine.step F.nan, SrcLine.sample (F.finite 1),
         SrcLine.sample (F.finite 2)] = none
    ∧ (∀ (g : Grapher) (lines : List SrcLine),
        (∀ s, SrcLine.step s ∈ lines → ∃ q, s = F.finite q) →
        (Grapher.parseLines g lines).isSome = true) := by
  refine ⟨?_, ?_, ?_⟩
  · intro b hlen ⟨p, hpm, hpnan⟩
    unfold GraphBuilder.completeOpt
    rw [sortOpt_none_of_bad _ (fun p => p.pos.x.isNaN)
      (fun a b => F.partialCmp_none_iff a.pos.x b.pos.x)
      b.points hlen ⟨p, hpm, hpnan⟩]
  · norm_num [Grapher.parseLines, Grapher.new, GrapherConfig.default, ParseSt.init,
      parseLine, GraphBuilder.new, GraphBuilder.push, GraphBuilder.completeOpt,
      sortOpt, insertOpt, F.partialCmp, F.add, F.lt]
  · intro g lines hstep
    obtain ⟨hx, hs, hp⟩ := parse_state_invariant lines hstep
      (ParseSt.init g.config.running_avg) ⟨0, rfl⟩ ⟨1, rfl⟩
      (by simp [ParseSt.init, GraphBuilder.new])
    obtain ⟨l', hl', _⟩ := sortOpt_some
      (fun a b : PointType => F.partialCmp a.pos.x b.pos.x)
      (List.foldl parseLine (ParseSt.init g.config.running_avg) lines).builder.points
      (fun a ha b hb => by
        rw [Option.isSome_iff_ne_none]
        intro hnone
        rcases (F.partialCmp_none_iff _ _).mp hnone with h | h
        · rw [hp a ha] at h; cases h
        · rw [hp b hb] at h; cases h)
    simp only [Grapher.parseLines, GraphBuilder.completeOpt, hl']
    simp

/-- Witness for C10 (amended) at concrete inputs. -/
theorem claim_C10_amended_witness :
    (((GraphBuilder.new none).push ⟨none, ⟨F.nan, F.finite 1⟩⟩).push
      ⟨none, ⟨F.finite 2, F.finite 3⟩⟩).completeOpt = none
    ∧ (Grapher.parseLines (Grapher.new GrapherConfig.default)
        [SrcLine.sample (F.finite 7)]).isSome = true := by
  constructor
  · exact claim_C10_amended.1 _ (by decide)
      ⟨⟨none, ⟨F.nan, F.finite 1⟩⟩, by decide, rfl⟩
  · exact claim_C10_amended.2.2 (Grapher.new GrapherConfig.default)
      [SrcLine.sample (F.finite 7)] (by simp)
/-- The axis frame read by GrapherDrawer::position and unposition, over the
reals (the drawer dereferences grapher.top/bottom/left/right and
config.log_scale). -/
structure GrapherR where
  top : ℝ
  bottom : ℝ
  left : ℝ
  right : ℝ
  log_scale : Option ℝ

/-- GrapherDrawer::position over the reals: normalize into the frame and
apply the optional log-scale exponent (powf is Real.rpow). -/
noncomputable def positionR (g : GrapherR) (point : Point2 ℝ) : Point2 ℝ :=
  let x := (point.x - g.left) / (g.right - g.left)
  let y := (point.y - g.bottom) / (g.top - g.bottom)
  let y :=
    match g.log_scale with
    | some scale => y ^ scale
    | none => y
  ⟨x, y⟩

/-- GrapherDrawer::unposition over the reals: undo the exponent with its
reciprocal, then denormalize. -/
noncomputable def unpositionR (g : GrapherR) (point : Point2 ℝ) : Point2 ℝ :=
  let y :=
    match g.log_scale with
    | some scale => point.y ^ scale⁻¹
    | none => point.y
  let x := point.x * (g.right - g.left)
  let y := y * (g.top - g.bottom)
  let x := x + g.left
  let y := y + g.bottom
  ⟨x, y⟩

/--
C5.  For every point strictly inside the axis frame (left < x < right,
bottom < y < top) and every positive log_scale exponent, unposition is a
left inverse of position (exactly, in the real model: the floating-point
tolerance of the claim collapses to equality once rounding is idealized
away).
-/
theorem claim_C5 (l r b t x y s : ℚ)
    (hlx : l < x) (hxr : x < r) (hby : b < y) (hyt : y < t) (hs : 0 < s) :
    unpositionR ⟨(t : ℝ), (b : ℝ), (l : ℝ), (r : ℝ), some (s : ℝ)⟩
      (positionR ⟨(t : ℝ), (b : ℝ), (l : ℝ), (r : ℝ), some (s : ℝ)⟩ ⟨(x : ℝ), (y : ℝ)⟩)
      = ⟨(x : ℝ), (y : ℝ)⟩ := by
  have hlx' : (l : ℝ) < x := by exact_mod_cast hlx
  have hxr' : (x : ℝ) < r := by exact_mod_cast hxr
  have hby' : (b : ℝ) < y := by exact_mod_cast hby
  have hyt' : (y : ℝ) < t := by exact_mod_cast hyt
  have hs' : (0 : ℝ) < s := by exact_mod_cast hs
  have hrl : (r : ℝ) - l ≠ 0 := by linarith
  have htb : (t : ℝ) - b ≠ 0 := by linarith
  have hu : (0 : ℝ) < ((y : ℝ) - b) / ((t : ℝ) - b) := by
    apply div_pos <;> linarith
  simp only [positionR, unpositionR]
  congr 1
  · rw [div_mul_cancel₀ _ hrl]
    ring
  · rw [← Real.rpow_mul (le_of_lt hu), mul_inv_cancel₀ (ne_of_gt hs'),
      Real.rpow_one, div_mul_cancel₀ _ htb]
    ring

/-- Witness for C5 at the frame (0,2)x(0,2), point (1,1), exponent 1. -/
theorem claim_C5_witness :
    unpositionR ⟨((2 : ℚ) : ℝ), ((0 : ℚ) : ℝ), ((0 : ℚ) : ℝ), ((2 : ℚ) : ℝ),
        some ((1 : ℚ) : ℝ)⟩
      (positionR ⟨((2 : ℚ) : ℝ), ((0 : ℚ) : ℝ), ((0 : ℚ) : ℝ), ((2 : ℚ) : ℝ),
        some ((1 : ℚ) : ℝ)⟩ ⟨((1 : ℚ) : ℝ), ((1 : ℚ) : ℝ)⟩)
      = ⟨((1 : ℚ) : ℝ), ((1 : ℚ) : ℝ)⟩ :=
  claim_C5 0 2 0 2 1 1 1 (by decide) (by decide) (by decide) (by decide) (by decide)
/-- Points::gamma_big over the reals: the Stirling asymptotic series with
the seven correction terms of the source (powi is Nat power, powf is rpow;
the f64 constants PI and E are idealized to their real values). -/
noncomputable def gammaBig (z : ℝ) : ℝ :=
  let terms := 1 + (([((1 : ℝ), (12 : ℝ)), (1, 288), (-139, 51840), (-571, 2488320),
      (163879, 209018880), (524819, 75246796800),
      (-534703531, 902961561600)].enum.map (fun ie =>
        ie.2.1 / (ie.2.2 * z ^ (ie.1 + 1)))).sum)
  Real.sqrt (2 * Real.pi / z) * (z / Real.exp 1) ^ z * terms

/-- Points::gamma: shift to a large argument with gamma(z) = gamma(z+1)/z
while z < 20, then the Stirling series.  The well-founded recursion on
ceil(20 - z) is the termination argument of C7. -/
noncomputable def gamma (z : ℝ) : ℝ :=
  if z < 20 then gamma (z + 1) / z else gammaBig z
termination_by ⌈(20 : ℝ) - z⌉₊
decreasing_by
  rename_i hz
  rw [show (20 : ℝ) - (z + 1) = (19 - z) by ring]
  apply Nat.lt_ceil.mpr
  rcases le_or_lt (19 - z) 0 with hle | hpos
  · rw [Nat.ceil_eq_zero.mpr hle]
    push_cast
    linarith
  · have h2 := Nat.ceil_lt_add_one (le_of_lt hpos)
    linarith

/-- Fuel-indexed unfolding of Points::gamma: each unit of fuel allows one
shift step; none means the fuel did not cover the recursion depth. -/
noncomputable def gammaFuel : ℕ → ℝ → Option ℝ
  | 0, z => if z < 20 then none else some (gammaBig z)
  | n + 1, z =>
    if z < 20 then (gammaFuel n (z + 1)).map (fun g => g / z) else some (gammaBig z)

/-- Extra fuel never changes a result that was already reached. -/
theorem gammaFuel_mono :
    ∀ (n : ℕ) (z : ℝ) (w : ℝ), gammaFuel n z = some w → gammaFuel (n + 1) z = some w := by
  intro n
  induction n with
  | zero =>
    intro z w h
    by_cases hz : z < 20
    · simp [gammaFuel, hz] at h
    · simpa [gammaFuel, hz] using h
  | succ m ih =>
    intro z w h
    by_cases hz : z < 20
    · rw [show gammaFuel (m + 1) z = (if z < 20 then
          (gammaFuel m (z + 1)).map (fun g => g / z) else some (gammaBig z)) from rfl,
        if_pos hz] at h
      rcases ho : gammaFuel m (z + 1) with _ | w' <;> rw [ho] at h
      · simp at h
      · rw [show gammaFuel (m + 1 + 1) z = (if z < 20 then
            (gammaFuel (m + 1) (z + 1)).map (fun g => g / z) else some (gammaBig z)) from rfl,
          if_pos hz, ih (z + 1) w' ho]
        exact h
    · rw [show gammaFuel (m + 1) z = (if z < 20 then
          (gammaFuel m (z + 1)).map (fun g => g / z) else some (gammaBig z)) from rfl,
        if_neg hz] at h
      rw [show gammaFuel (m + 1 + 1) z = (if z < 20 then
          (gammaFuel (m + 1) (z + 1)).map (fun g => g / z) else some (gammaBig z)) from rfl,
        if_neg hz]
      exact h

/-- Fuel monotonicity, arbitrary gap. -/
theorem gammaFuel_le_mono (n m : ℕ) (hnm : n ≤ m) :
    ∀ (z : ℝ) (w : ℝ), gammaFuel n z = some w → gammaFuel m z = some w := by
  induction m with
  | zero =>
    intro z w h
    rw [Nat.le_zero.mp hnm] at h
    exact h
  | succ k ih =>
    intro z w h
    rcases Nat.lt_or_ge n (k + 1) with hlt | hge
    · exact gammaFuel_mono k z w (ih (Nat.lt_succ_iff.mp hlt) z w h)
    · rw [Nat.le_antisymm hnm hge] at h
      exact h

/-- ceil(20 - z) shift steps always suffice to evaluate gamma. -/
theorem gammaFuel_exact : ∀ (n : ℕ) (z : ℝ), ⌈(20 : ℝ) - z⌉₊ = n →
    gammaFuel n z = some (gamma z) := by
  intro n
  induction n using Nat.strong_induction_on with
  | _ n ih =>
    intro z hn
    by_cases hz : z < 20
    · have hpos : (0 : ℝ) < 20 - z := by linarith
      have hn1 : 1 ≤ n := by
        rw [← hn]
        exact Nat.ceil_pos.mpr hpos
      obtain ⟨m, hm⟩ : ∃ m, n = m + 1 := ⟨n - 1, by omega⟩
      subst hm
      have hdec : ⌈(20 : ℝ) - (z + 1)⌉₊ < m + 1 := by
        rw [← hn, show (20 : ℝ) - (z + 1) = (19 - z) by ring]
        apply Nat.lt_ceil.mpr
        rcases le_or_lt (19 - z) 0 with hle | hpos2
        · rw [Nat.ceil_eq_zero.mpr hle]
          push_cast
          linarith
        · have h2 := Nat.ceil_lt_add_one (le_of_lt hpos2)
          linarith
      have hrec := ih ⌈(20 : ℝ) - (z + 1)⌉₊ hdec (z + 1) rfl
      have hfm : gammaFuel m (z + 1) = some (gamma (z + 1)) :=
        gammaFuel_le_mono _ m (Nat.lt_succ_iff.mp hdec) _ _ hrec
      rw [show gammaFuel (m + 1) z = (if z < 20 then
          (gammaFuel m (z + 1)).map (fun g => g / z) else some (gammaBig z)) from rfl,
        if_pos hz, hfm]
      rw [show gamma z = gamma (z + 1) / z from by rw [gamma]; rw [if_pos hz]]
      rfl
    · rcases n with _ | m
      · rw [show gammaFuel 0 z = (if z < 20 then none else some (gammaBig z)) from rfl,
          if_neg hz]
        rw [show gamma z = gammaBig z from by rw [gamma]; rw [if_neg hz]]
      · rw [show gammaFuel (m + 1) z = (if z < 20 then
            (gammaFuel m (z + 1)).map (fun g => g / z) else some (gammaBig z)) from rfl,
          if_neg hz]
        rw [show gamma z = gammaBig z from by rw [gamma]; rw [if_neg hz]]

/--
C7.  The Gamma approximation is total: for every finite argument q the
shift recursion terminates within ceil(20 - q) steps (gammaFuel with exactly
that much fuel already returns the value of gamma), below 20 it applies the
identity gamma z = gamma (z+1)/z, and at or above 20 it evaluates the
Stirling series gammaBig with no recursion (zero fuel suffices).
-/
theorem claim_C7 (q : ℚ) :
    gammaFuel ⌈(20 : ℝ) - (q : ℝ)⌉₊ (q : ℝ) = some (gamma (q : ℝ))
    ∧ (20 ≤ q → gamma (q : ℝ) = gammaBig (q : ℝ) ∧ ⌈(20 : ℝ) - (q : ℝ)⌉₊ = 0)
    ∧ (q < 20 → gamma (q : ℝ) = gamma ((q : ℝ) + 1) / (q : ℝ)) := by
  refine ⟨gammaFuel_exact _ _ rfl, ?_, ?_⟩
  · intro h20
    have h20' : (20 : ℝ) ≤ (q : ℝ) := by exact_mod_cast h20
    constructor
    · rw [gamma]
      rw [if_neg (not_lt.mpr h20')]
    · rw [Nat.ceil_eq_zero]
      linarith
  · intro h20
    have h20' : ((q : ℝ)) < 20 := by exact_mod_cast h20
    rw [gamma]
    rw [if_pos h20']

/-- Witness for C7 at 25 (no recursion) and 19 (one shift). -/
theorem claim_C7_witness :
    (gamma ((25 : ℚ) : ℝ) = gammaBig ((25 : ℚ) : ℝ) ∧ ⌈(20 : ℝ) - ((25 : ℚ) : ℝ)⌉₊ = 0)
    ∧ gamma ((19 : ℚ) : ℝ) = gamma (((19 : ℚ) : ℝ) + 1) / ((19 : ℚ) : ℝ) :=
  ⟨(claim_C7 25).2.1 (by decide), (claim_C7 19).2.2 (by decide)⟩
/-- Points::mean_of: sum divided by a caller-provided length. -/
noncomputable def meanOf (values : List ℝ) (len : ℕ) : ℝ := values.sum / len

/-- Points::mean. -/
noncomputable def meanR (values : List ℝ) : ℝ := meanOf values values.length

/-- Points::sample_standard_deviation (the n-1 divisor of the source). -/
noncomputable def sampleStdDev (values : List ℝ) : ℝ :=
  let mean := meanR values
  let variance := meanOf (values.map (fun x => (x - mean) ^ 2)) (values.length - 1)
  Real.sqrt variance

/-- Points::standard_scores. -/
noncomputable def standardScores (values : List ℝ) : List ℝ :=
  let mean := meanR values
  let standard_deviation := sampleStdDev values
  values.map (fun x => (x - mean) / standard_deviation)

/-- Points::students_t: the t-density ordinate built from the gamma
approximation (recip of the powf, exactly as the source). -/
noncomputable def studentsT (df t : ℝ) : ℝ :=
  let vh := (df + 1) / 2
  let top := gamma vh
  let bottom := Real.sqrt (Real.pi * df) * gamma (df / 2)
  let right := ((1 + t ^ 2 / df) ^ vh)⁻¹
  (top / bottom) * right

structure PearsonR where
  r : ℝ
  p : ℝ

/-- Points::pearson_corr_coeff over the reals, on the list of coordinate
pairs. -/
noncomputable def pearson_corr_coeff (points : List (ℝ × ℝ)) : PearsonR :=
  let len := points.length
  let standard_scores_x := standardScores (points.map Prod.fst)
  let standard_scores_y := standardScores (points.map Prod.snd)
  let r := meanOf
    ((standard_scores_x.zip standard_scores_y).map (fun xy => xy.1 * xy.2))
    (len - 1)
  let df := ((len - 2 : ℕ) : ℝ)
  let t := (r / Real.sqrt (1 - r ^ 2)) * Real.sqrt df
  let p := studentsT df t
  ⟨r, p⟩

/-- Claim-side mean formula. -/
noncomputable def specMean (xs : List ℝ) : ℝ := xs.sum / xs.length

/-- Claim-side sample standard deviation (n-1 divisor). -/
noncomputable def specSd (xs : List ℝ) : ℝ :=
  Real.sqrt ((xs.map (fun v => (v - specMean xs) ^ 2)).sum / ((xs.length - 1 : ℕ) : ℝ))

/-- Claim-side r: mean (n-1 divisor) of the pairwise products of the
standard scores. -/
noncomputable def spec_r (xs ys : List ℝ) : ℝ :=
  (List.zipWith (fun a b =>
      ((a - specMean xs) / specSd xs) * ((b - specMean ys) / specSd ys)) xs ys).sum
    / ((xs.length - 1 : ℕ) : ℝ)

/-- Claim-side t statistic. -/
noncomputable def spec_t (r : ℝ) (n : ℕ) : ℝ :=
  r / Real.sqrt (1 - r ^ 2) * Real.sqrt ((n - 2 : ℕ) : ℝ)

/-- Claim-side p: the Student-t density ordinate written with a negative
exponent (the density, not an integrated tail probability). -/
noncomputable def spec_p (df t : ℝ) : ℝ :=
  gamma ((df + 1) / 2) / (Real.sqrt (Real.pi * df) * gamma (df / 2))
    * (1 + t ^ 2 / df) ^ (-((df + 1) / 2))

/-- Rational sample variance, used to state the nonzero-variance
hypothesis decidably. -/
def sampleVarQ (xs : List ℚ) : ℚ :=
  (xs.map (fun v => (v - xs.sum / xs.length) ^ 2)).sum / ((xs.length - 1 : ℕ) : ℚ)

/-- Zipping two mapped lists and multiplying is zipWith of the composites. -/
theorem zip_map_mul (f g : ℝ → ℝ) :
    ∀ (xs ys : List ℝ),
      (((xs.map f).zip (ys.map g)).map (fun xy => xy.1 * xy.2))
        = List.zipWith (fun a b => f a * g b) xs ys := by
  intro xs
  induction xs with
  | nil => intro ys; simp
  | cons x xs ih =>
    intro ys
    cases ys with
    | nil => simp
    | cons y ys => simp [ih]

/-- The source's reciprocal of a positive power is the claim's negative
exponent. -/
theorem studentsT_eq_spec (df t : ℝ) (hdf : 0 ≤ df) : studentsT df t = spec_p df t := by
  unfold studentsT spec_p
  have hbase : (0 : ℝ) ≤ 1 + t ^ 2 / df := by
    have h2 : (0 : ℝ) ≤ t ^ 2 / df := div_nonneg (sq_nonneg t) hdf
    linarith
  rw [Real.rpow_neg hbase]

/--
C6.  For every series of at least three finite points with nonzero sample
variance in both coordinates, pearson_corr_coeff returns r equal to the mean
(n-1 divisor) of the pairwise products of the standard scores, and p equal
to the Student-t density ordinate with t = r/sqrt(1-r^2)*sqrt(n-2) and
df = n-2 - exactly the density formula, where Gamma is the program's own
gamma approximation.
-/
theorem claim_C6 (pts : List (ℚ × ℚ)) (hlen : 3 ≤ pts.length)
    (hvx : sampleVarQ (pts.map Prod.fst) ≠ 0)
    (hvy : sampleVarQ (pts.map Prod.snd) ≠ 0) :
    (pearson_corr_coeff (pts.map (fun p => ((p.1 : ℝ), (p.2 : ℝ))))).r
        = spec_r ((pts.map (fun p => ((p.1 : ℝ), (p.2 : ℝ)))).map Prod.fst)
            ((pts.map (fun p => ((p.1 : ℝ), (p.2 : ℝ)))).map Prod.snd)
    ∧ (pearson_corr_coeff (pts.map (fun p => ((p.1 : ℝ), (p.2 : ℝ))))).p
        = spec_p ((pts.length - 2 : ℕ) : ℝ)
            (spec_t
              (spec_r ((pts.map (fun p => ((p.1 : ℝ), (p.2 : ℝ)))).map Prod.fst)
                ((pts.map (fun p => ((p.1 : ℝ), (p.2 : ℝ)))).map Prod.snd))
              pts.length) := by
  set xs := (pts.map (fun p => ((p.1 : ℝ), (p.2 : ℝ)))).map Prod.fst with hxs
  set ys := (pts.map (fun p => ((p.1 : ℝ), (p.2 : ℝ)))).map Prod.snd with hys
  have hr : (pearson_corr_coeff (pts.map (fun p => ((p.1 : ℝ), (p.2 : ℝ))))).r
      = spec_r xs ys := by
    show meanOf ((((standardScores xs).zip (standardScores ys))).map
        (fun xy => xy.1 * xy.2)) ((pts.map (fun p => ((p.1 : ℝ), (p.2 : ℝ)))).length - 1)
      = spec_r xs ys
    rw [show standardScores xs = xs.map
        (fun x => (x - meanR xs) / sampleStdDev xs) from rfl,
      show standardScores ys = ys.map
        (fun y => (y - meanR ys) / sampleStdDev ys) from rfl,
      zip_map_mul]
    unfold spec_r meanOf
    have hmx : meanR xs = specMean xs := rfl
    have hsx : sampleStdDev xs = specSd xs := rfl
    have hmy : meanR ys = specMean ys := rfl
    have hsy : sampleStdDev ys = specSd ys := rfl
    rw [hmx, hsx, hmy, hsy]
    have hlx : xs.length = pts.length := by simp [hxs]
    have hlp : (pts.map (fun p => ((p.1 : ℝ), (p.2 : ℝ)))).length = pts.length := by simp
    rw [hlx, hlp]
  refine ⟨hr, ?_⟩
  have hlp : (pts.map (fun p => ((p.1 : ℝ), (p.2 : ℝ)))).length = pts.length := by simp
  show studentsT (((pts.map (fun p => ((p.1 : ℝ), (p.2 : ℝ)))).length - 2 : ℕ) : ℝ)
      ((pearson_corr_coeff (pts.map (fun p => ((p.1 : ℝ), (p.2 : ℝ))))).r
        / Real.sqrt (1 - (pearson_corr_coeff (pts.map (fun p => ((p.1 : ℝ), (p.2 : ℝ))))).r ^ 2)
        * Real.sqrt ((((pts.map (fun p => ((p.1 : ℝ), (p.2 : ℝ)))).length - 2 : ℕ) : ℝ)))
    = spec_p ((pts.length - 2 : ℕ) : ℝ) (spec_t (spec_r xs ys) pts.length)
  rw [hlp, hr]
  exact studentsT_eq_spec _ _ (Nat.cast_nonneg _)

/-- The x coordinates 1,2,3 have nonzero sample variance. -/
theorem claim_C6_varx :
    sampleVarQ (([((1 : ℚ), (1 : ℚ)), (2, 3), (3, 4)]).map Prod.fst) ≠ 0 := by
  norm_num [sampleVarQ]

/-- The y coordinates 1,3,4 have nonzero sample variance. -/
theorem claim_C6_vary :
    sampleVarQ (([((1 : ℚ), (1 : ℚ)), (2, 3), (3, 4)]).map Prod.snd) ≠ 0 := by
  norm_num [sampleVarQ]

/-- Witness for C6 at the three-point series (1,1),(2,3),(3,4). -/
theorem claim_C6_witness :
    (pearson_corr_coeff (([((1 : ℚ), (1 : ℚ)), (2, 3), (3, 4)]).map
        (fun p => ((p.1 : ℝ), (p.2 : ℝ))))).r
        = spec_r ((([((1 : ℚ), (1 : ℚ)), (2, 3), (3, 4)]).map
              (fun p => ((p.1 : ℝ), (p.2 : ℝ)))).map Prod.fst)
            ((([((1 : ℚ), (1 : ℚ)), (2, 3), (3, 4)]).map
              (fun p => ((p.1 : ℝ), (p.2 : ℝ)))).map Prod.snd)
    ∧ (pearson_corr_coeff (([((1 : ℚ), (1 : ℚ)), (2, 3), (3, 4)]).map
        (fun p => ((p.1 : ℝ), (p.2 : ℝ))))).p
        = spec_p ((([((1 : ℚ), (1 : ℚ)), (2, 3), (3, 4)] : List (ℚ × ℚ)).length - 2 : ℕ) : ℝ)
            (spec_t
              (spec_r ((([((1 : ℚ), (1 : ℚ)), (2, 3), (3, 4)]).map
                  (fun p => ((p.1 : ℝ), (p.2 : ℝ)))).map Prod.fst)
                ((([((1 : ℚ), (1 : ℚ)), (2, 3), (3, 4)]).map
                  (fun p => ((p.1 : ℝ), (p.2 : ℝ)))).map Prod.snd))
              ([((1 : ℚ), (1 : ℚ)), (2, 3), (3, 4)] : List (ℚ × ℚ)).length) :=
  claim_C6 [((1 : ℚ), (1 : ℚ)), (2, 3), (3, 4)] (by decide) claim_C6_varx claim_C6_vary
/-- The error type of src/config.rs. -/
inductive ConfigError where
  | ExpectedValue (argument : String)
  | ExclusiveArguments (first second : String)
  | NumberParse (value : String)
deriving Repr, DecidableEq

/-- The resolved CLI configuration of src/config.rs (floats as F values). -/
structure Config where
  log_scale : Option F
  min_avg : Option F
  min_height : Option F
  max_height : Option F
  running_avg : Option ℕ
  plot_line : Bool
  paths : List String
deriving Repr, DecidableEq

/-- The argument loop of Config::parse.  The string-to-number conversions of
the standard library are uninterpreted parameters pf (f64) and pu (u32);
everything else mirrors the source: value flags consume the next argument,
-L and --line set plot_line, anything else is a path, and the min-avg/min
mutual exclusion is checked after the loop. -/
def parseGo (pf : String → Option F) (pu : String → Option ℕ) :
    List String → Config → Except ConfigError Config
  | [], acc =>
    if acc.min_avg.isSome ∧ acc.min_height.isSome then
      Except.error (ConfigError.ExclusiveArguments "--min-avg" "--min")
    else Except.ok acc
  | arg :: rest, acc =>
    if arg = "-l" ∨ arg = "--log" then
      match rest with
      | [] => Except.error (ConfigError.ExpectedValue arg)
      | v :: rest2 =>
        match pf v with
        | none => Except.error (ConfigError.NumberParse v)
        | some q => parseGo pf pu rest2 { acc with log_scale := some q }
    else if arg = "--min-avg" then
      match rest with
      | [] => Except.error (ConfigError.ExpectedValue arg)
      | v :: rest2 =>
        match pf v with
        | none => Except.error (ConfigError.NumberParse v)
        | some q => parseGo pf pu rest2 { acc with min_avg := some q }
    else if arg = "-m" ∨ arg = "--min" then
      match rest with
      | [] => Except.error (ConfigError.ExpectedValue arg)
      | v :: rest2 =>
        match pf v with
        | none => Except.error (ConfigError.NumberParse v)
        | some q => parseGo pf pu rest2 { acc with min_height := some q }
    else if arg = "-M" ∨ arg = "--max" then
      match rest with
      | [] => Except.error (ConfigError.ExpectedValue arg)
      | v :: rest2 =>
        match pf v with
        | none => Except.error (ConfigError.NumberParse v)
        | some q => parseGo pf pu rest2 { acc with max_height := some q }
    else if arg = "-r" ∨ arg = "--running-avg" then
      match rest with
      | [] => Except.error (ConfigError.ExpectedValue arg)
      | v :: rest2 =>
        match pu v with
        | none => Except.error (ConfigError.NumberParse v)
        | some n => parseGo pf pu rest2 { acc with running_avg := some n }
    else if arg = "-L" ∨ arg = "--line" then
      parseGo pf pu rest { acc with plot_line := true }
    else
      parseGo pf pu rest { acc with paths := acc.paths ++ [arg] }

/-- Config::parse from an empty accumulator. -/
def Config.parse (pf : String → Option F) (pu : String → Option ℕ)
    (args : List String) : Except ConfigError Config :=
  parseGo pf pu args ⟨none, none, none, none, none, false, []⟩

/-- The GrapherConfig constructed by main: the five numeric options are
copied from the parsed Config and the rest comes from ..Default::default(),
so plot_line is the default false and Config::parse's plot_line is dropped. -/
def mainGrapherConfig (pf : String → Option F) (pu : String → Option ℕ)
    (args : List String) : Except ConfigError GrapherConfig :=
  (Config.parse pf pu args).map (fun config =>
    { log_scale := config.log_scale
      min_avg := config.min_avg
      min_height := config.min_height
      max_height := config.max_height
      running_avg := config.running_avg
      plot_line := GrapherConfig.default.plot_line })

/-- One draw call of GrapherDrawer::to_image, used as a trace. -/
inductive DrawCmd where
  | guides
  | lowMarker (i : ℕ)
  | borders
  | bestFit (i : ℕ)
  | graphPlot (i : ℕ)
  | units
deriving Repr, DecidableEq

/-- The sequence of draw calls GrapherDrawer::to_image performs: guides,
one lowest-value marker per series that has one, the border, then per series
the optional best-fit overlay (guarded by config.plot_line) followed by the
series plot, and finally the axis unit labels. -/
def toImageCmds (g : Grapher) : List DrawCmd :=
  [DrawCmd.guides]
  ++ (g.graphs.enum.filterMap (fun ig =>
      ig.2.lowest.map (fun _ => DrawCmd.lowMarker ig.1)))
  ++ [DrawCmd.borders]
  ++ (g.graphs.enum.flatMap (fun ig =>
      (if g.config.plot_line then [DrawCmd.bestFit ig.1] else [])
        ++ [DrawCmd.graphPlot ig.1]))
  ++ [DrawCmd.units]

/--
C9.  The -L (long form --line) flag never reaches the core: whatever the command line,
the GrapherConfig main builds has plot_line = false (Config::parse's value
is discarded by ..Default::default()), Config::parse itself does set
plot_line = true for -L, and a Grapher whose config has plot_line = false
never emits a best-fit draw call.
-/
theorem claim_C9 :
    (∀ (pf : String → Option F) (pu : String → Option ℕ) (args : List String)
        (cfg : GrapherConfig),
      mainGrapherConfig pf pu args = Except.ok cfg → cfg.plot_line = false)
    ∧ (∀ (pf : String → Option F) (pu : String → Option ℕ),
        ∃ c : Config, Config.parse pf pu ["-L"] = Except.ok c ∧ c.plot_line = true)
    ∧ (∀ g : Grapher, g.config.plot_line = false →
        ∀ i : ℕ, DrawCmd.bestFit i ∉ toImageCmds g) := by
  refine ⟨?_, ?_, ?_⟩
  · intro pf pu args cfg h
    unfold mainGrapherConfig at h
    rcases hp : Config.parse pf pu args with e | c <;> rw [hp] at h
    · simp [Except.map] at h
    · simp [Except.map] at h
      rw [← h]
      rfl
  · intro pf pu
    refine ⟨⟨none, none, none, none, none, true, []⟩, ?_, rfl⟩
    rfl
  · intro g hpl i hmem
    simp only [toImageCmds, hpl, if_false, List.mem_append, List.mem_cons,
      List.mem_singleton, Bool.false_eq_true, List.mem_filterMap,
      List.mem_flatMap] at hmem
    rcases hmem with ((((h | h) | ⟨a, _, ha⟩) | h) | ⟨a, _, ha⟩) | h
    · exact absurd h (by simp)
    · exact absurd h (by simp)
    · rcases ho : a.2.lowest with _ | v <;> rw [ho] at ha <;> simp at ha
    · exact absurd h (by simp)
    · simp at ha
    · exact absurd h (by simp)

/-- Witness for C9 at the concrete command line [-L]. -/
theorem claim_C9_witness :
    ({ log_scale := none, min_avg := none, min_height := none, max_height := none,
       running_avg := none, plot_line := false } : GrapherConfig).plot_line = false
    ∧ (∃ c : Config, Config.parse (fun _ => none) (fun _ => none) ["-L"]
        = Except.ok c ∧ c.plot_line = true)
    ∧ DrawCmd.bestFit 0 ∉ toImageCmds (Grapher.new GrapherConfig.default) :=
  ⟨claim_C9.1 (fun _ => none) (fun _ => none) ["-L"] _ rfl,
   claim_C9.2.1 (fun _ => none) (fun _ => none),
   claim_C9.2.2 (Grapher.new GrapherConfig.default) rfl 0⟩

instance : Add F := ⟨F.add⟩
instance : Sub F := ⟨F.sub⟩
instance : Mul F := ⟨F.mul⟩
instance : Div F := ⟨F.div⟩
instance : Neg F := ⟨F.neg⟩

theorem F.add_def (a b : F) : a + b = F.add a b := rfl

theorem F.sub_def (a b : F) : a - b = F.sub a b := rfl

theorem F.mul_def (a b : F) : a * b = F.mul a b := rfl

theorem F.div_def (a b : F) : a / b = F.div a b := rfl

theorem F.neg_def (a : F) : -a = F.neg a := rfl

structure PPMImage (α : Type) where
  data : List Color
  width : ℕ
  height : ℕ
  width_bigger : Bool
  aspect : α

def PPMImage.newF (width height : ℕ) (c : Color) : PPMImage F :=
  let width_bigger := decide (height ≤ width)
  let aspect := F.div (F.finite width) (F.finite height)
  let aspect := if width_bigger then aspect else F.sub (F.finite 2) aspect
  ⟨List.replicate (width * height) c, width, height, width_bigger, aspect⟩

def withoutAspectF (img : PPMImage F) (point : Point2 F) : Point2 F :=
  if img.width_bigger then ⟨F.div point.x img.aspect, point.y⟩
  else ⟨point.x, F.div point.y img.aspect⟩

def USIZEMAX : ℕ := 2 ^ 64 - 1

def F.toUSize (v : F) : ℕ :=
  match v with
  | F.nan => 0
  | F.neginf => 0
  | F.inf => USIZEMAX
  | F.finite q => if q ≤ 0 then 0 else Min.min ⌊q⌋.toNat USIZEMAX

def toLocalF (img : PPMImage F) (point : Point2 F) : Point2 F :=
  ⟨F.mul point.x (F.finite img.width),
   F.mul (F.sub (F.finite 1) point.y) (F.finite img.height)⟩

def PPMImage.toLocal (img : PPMImage F) (point : Point2 F) : Point2 ℕ :=
  let p := toLocalF img point
  ⟨min (max (F.toUSize p.x) 0) (img.width - 1),
   min (max (F.toUSize p.y) 0) (img.height - 1)⟩

theorem toLocal_lt (img : PPMImage F) (point : Point2 F)
    (hw : 0 < img.width) (hh : 0 < img.height) :
    (img.toLocal point).x < img.width ∧ (img.toLocal point).y < img.height := by
  unfold PPMImage.toLocal
  constructor
  · exact lt_of_le_of_lt (min_le_right _ _) (by omega)
  · exact lt_of_le_of_lt (min_le_right _ _) (by omega)

def bresStep (b : Point2 ℤ) (sx sy dx dy : ℤ) (p : Point2 ℤ) (error : ℤ) :
    Option (Point2 ℤ × ℤ) :=
  if p = b then none
  else
    let error_2 := error * 2
    if dy ≤ error_2 then
      if p.x = b.x then none
      else
        let px := p.x + sx
        let e1 := error + dy
        if error_2 ≤ dx then
          if p.y = b.y then none
          else some (⟨px, p.y + sy⟩, e1 + dx)
        else some (⟨px, p.y⟩, e1)
    else
      if error_2 ≤ dx then
        if p.y = b.y then none
        else some (⟨p.x, p.y + sy⟩, error + dx)
      else some (p, error)

def bresGo (b : Point2 ℤ) (sx sy dx dy : ℤ) :
    ℕ → Point2 ℤ → ℤ → Option (List (Point2 ℤ))
  | 0, _, _ => none
  | fuel + 1, p, error =>
    match bresStep b sx sy dx dy p error with
    | none => some [p]
    | some (p', error') =>
      (bresGo b sx sy dx dy fuel p' error').map (fun rest => p :: rest)

theorem bresStep_shape (b : Point2 ℤ) (sx sy dx dy : ℤ) (p : Point2 ℤ) (e : ℤ)
    (hdx : 0 ≤ dx) (hdy : dy ≤ 0)
    (hsx : sx = 1 ∨ sx = -1) (hsy : sy = 1 ∨ sy = -1) :
    bresStep b sx sy dx dy p e = none
    ∨ ∃ p' e', bresStep b sx sy dx dy p e = some (p', e')
        ∧ ((p'.x = p.x + sx ∧ p.x ≠ b.x) ∨ p'.x = p.x)
        ∧ ((p'.y = p.y + sy ∧ p.y ≠ b.y) ∨ p'.y = p.y)
        ∧ (p'.x ≠ p.x ∨ p'.y ≠ p.y) := by
  unfold bresStep
  by_cases hpb : p = b
  · exact Or.inl (by simp [hpb])
  rw [if_neg hpb]
  by_cases h1 : dy ≤ e * 2
  · rw [if_pos h1]
    by_cases hx : p.x = b.x
    · exact Or.inl (by rw [if_pos hx])
    rw [if_neg hx]
    by_cases h2 : e * 2 ≤ dx
    · rw [if_pos h2]
      by_cases hy : p.y = b.y
      · exact Or.inl (by rw [if_pos hy])
      rw [if_neg hy]
      exact Or.inr ⟨⟨p.x + sx, p.y + sy⟩, e + dy + dx, rfl,
        Or.inl ⟨rfl, hx⟩, Or.inl ⟨rfl, hy⟩, Or.inl (by simp; omega)⟩
    · rw [if_neg h2]
      exact Or.inr ⟨⟨p.x + sx, p.y⟩, e + dy, rfl, Or.inl ⟨rfl, hx⟩, Or.inr rfl,
        Or.inl (by simp; omega)⟩
  · rw [if_neg h1]
    by_cases h2 : e * 2 ≤ dx
    · rw [if_pos h2]
      by_cases hy : p.y = b.y
      · exact Or.inl (by rw [if_pos hy])
      rw [if_neg hy]
      exact Or.inr ⟨⟨p.x, p.y + sy⟩, e + dx, rfl, Or.inr rfl, Or.inl ⟨rfl, hy⟩,
        Or.inr (by simp; omega)⟩
    · omega

theorem bresGo_total (b : Point2 ℤ) (sx sy dx dy : ℤ)
    (hdx : 0 ≤ dx) (hdy : dy ≤ 0)
    (hsx : sx = 1 ∨ sx = -1) (hsy : sy = 1 ∨ sy = -1) :
    ∀ (fuel : ℕ) (p : Point2 ℤ) (error : ℤ),
      ((b.x - p.x).natAbs + (b.y - p.y).natAbs) < fuel →
      (sx = 1 → p.x ≤ b.x) → (sx = -1 → b.x ≤ p.x) →
      (sy = 1 → p.y ≤ b.y) → (sy = -1 → b.y ≤ p.y) →
      ∃ out, bresGo b sx sy dx dy fuel p error = some out
        ∧ ∀ q ∈ out,
            (sx = 1 → p.x ≤ q.x ∧ q.x ≤ b.x) ∧ (sx = -1 → b.x ≤ q.x ∧ q.x ≤ p.x)
            ∧ (sy = 1 → p.y ≤ q.y ∧ q.y ≤ b.y) ∧ (sy = -1 → b.y ≤ q.y ∧ q.y ≤ p.y) := by
  intro fuel
  induction fuel with
  | zero => intro p error hm; omega
  | succ fuel ih =>
    intro p error hm hx1 hx2 hy1 hy2
    rcases bresStep_shape b sx sy dx dy p error hdx hdy hsx hsy with hnone |
      ⟨p', e', hstep, hxs, hys, hprog⟩
    · refine ⟨[p], by simp [bresGo, hnone], ?_⟩
      intro q hq
      rw [List.mem_singleton] at hq
      subst hq
      refine ⟨fun h => ⟨le_refl _, hx1 h⟩, fun h => ⟨hx2 h, le_refl _⟩,
        fun h => ⟨le_refl _, hy1 h⟩, fun h => ⟨hy2 h, le_refl _⟩⟩
    · have hx1' : sx = 1 → p'.x ≤ b.x := by
        intro h; rcases hxs with ⟨hs, hne⟩ | hs <;> rw [hs] <;>
          [skip; exact hx1 h] <;> rw [h] <;> have := hx1 h <;> omega
      have hx2' : sx = -1 → b.x ≤ p'.x := by
        intro h; rcases hxs with ⟨hs, hne⟩ | hs <;> rw [hs] <;>
          [skip; exact hx2 h] <;> rw [h] <;> have := hx2 h <;> omega
      have hy1' : sy = 1 → p'.y ≤ b.y := by
        intro h; rcases hys with ⟨hs, hne⟩ | hs <;> rw [hs] <;>
          [skip; exact hy1 h] <;> rw [h] <;> have := hy1 h <;> omega
      have hy2' : sy = -1 → b.y ≤ p'.y := by
        intro h; rcases hys with ⟨hs, hne⟩ | hs <;> rw [hs] <;>
          [skip; exact hy2 h] <;> rw [h] <;> have := hy2 h <;> omega
      have hxmono : (sx = 1 → p.x ≤ p'.x) ∧ (sx = -1 → p'.x ≤ p.x) := by
        constructor <;> intro h <;> rcases hxs with ⟨hs, _⟩ | hs <;> rw [hs] <;> omega
      have hymono : (sy = 1 → p.y ≤ p'.y) ∧ (sy = -1 → p'.y ≤ p.y) := by
        constructor <;> intro h <;> rcases hys with ⟨hs, _⟩ | hs <;> rw [hs] <;> omega
      have hxfact : (sx = 1 ∧ p.x ≤ b.x) ∨ (sx = -1 ∧ b.x ≤ p.x) := by
        rcases hsx with h | h
        · exact Or.inl ⟨h, hx1 h⟩
        · exact Or.inr ⟨h, hx2 h⟩
      have hyfact : (sy = 1 ∧ p.y ≤ b.y) ∨ (sy = -1 ∧ b.y ≤ p.y) := by
        rcases hsy with h | h
        · exact Or.inl ⟨h, hy1 h⟩
        · exact Or.inr ⟨h, hy2 h⟩
      have hm' : ((b.x - p'.x).natAbs + (b.y - p'.y).natAbs) < fuel := by
        clear hstep ih hx1 hx2 hy1 hy2 hx1' hx2' hy1' hy2' hxmono hymono hsx hsy
        rcases hxs with ⟨hsxe, hnex⟩ | hsxe <;> rcases hys with ⟨hsye, hney⟩ | hsye <;>
          rcases hxfact with ⟨e1, f1⟩ | ⟨e1, f1⟩ <;>
          rcases hyfact with ⟨e2, f2⟩ | ⟨e2, f2⟩ <;>
          rcases hprog with hpx | hpy <;> omega
      obtain ⟨out, hout, hbound⟩ := ih p' e' hm' hx1' hx2' hy1' hy2'
      refine ⟨p :: out, ?_, ?_⟩
      · simp [bresGo, hstep, hout]
      · intro q hq
        rcases List.mem_cons.mp hq with hqp | hqo
        · subst hqp
          exact ⟨fun h => ⟨le_refl _, hx1 h⟩, fun h => ⟨hx2 h, le_refl _⟩,
            fun h => ⟨le_refl _, hy1 h⟩, fun h => ⟨hy2 h, le_refl _⟩⟩
        · obtain ⟨hb1, hb2, hb3, hb4⟩ := hbound q hqo
          exact ⟨fun h => ⟨le_trans (hxmono.1 h) (hb1 h).1, (hb1 h).2⟩,
            fun h => ⟨(hb2 h).1, le_trans (hb2 h).2 (hxmono.2 h)⟩,
            fun h => ⟨le_trans (hymono.1 h) (hb3 h).1, (hb3 h).2⟩,
            fun h => ⟨(hb4 h).1, le_trans (hb4 h).2 (hymono.2 h)⟩⟩

/-- One row of the triangle fill: Rust `for x in low..=high` (empty when
`high < low`, as for the untouched `(usize::MAX, usize::MIN)` pairs). -/
def rowPixels (low high : ℕ) : List ℕ :=
  if low ≤ high then (List.range (high + 1 - low)).map (fun i => low + i) else []

theorem rowPixels_mem (low high x : ℕ) (h : x ∈ rowPixels low high) :
    low ≤ x ∧ x ≤ high := by
  unfold rowPixels at h
  split at h
  · obtain ⟨i, hi, rfl⟩ := List.mem_map.mp h
    rw [List.mem_range] at hi
    omega
  · simp at h

/-- Rust `line_pixels`: Bresenham on `i32` between two `usize` points, cast
back to `usize` at each push.  The fuel is one more than the L1 distance
between the endpoints; `bresGo_total` shows this suffices, mirroring the
terminating Rust loop. -/
def linePixels (a b : Point2 ℕ) : Option (List (Point2 ℕ)) :=
  let p0 : Point2 ℤ := ⟨(a.x : ℤ), (a.y : ℤ)⟩
  let p1 : Point2 ℤ := ⟨(b.x : ℤ), (b.y : ℤ)⟩
  let dx := |p1.x - p0.x|
  let sx : ℤ := if p0.x < p1.x then 1 else -1
  let dy := -|p1.y - p0.y|
  let sy : ℤ := if p0.y < p1.y then 1 else -1
  (bresGo p1 sx sy dx dy ((p1.x - p0.x).natAbs + (p1.y - p0.y).natAbs + 1) p0 (dx + dy)).map
    (fun l => l.map (fun p => (⟨p.x.toNat, p.y.toNat⟩ : Point2 ℕ)))

theorem linePixels_total (a b : Point2 ℕ) :
    ∃ l, linePixels a b = some l ∧ ∀ q ∈ l,
      q.x ≤ max a.x b.x ∧ min a.y b.y ≤ q.y ∧ q.y ≤ max a.y b.y := by
  unfold linePixels
  dsimp only
  have hdx : (0 : ℤ) ≤ |(b.x : ℤ) - (a.x : ℤ)| := abs_nonneg _
  have hdy : -|(b.y : ℤ) - (a.y : ℤ)| ≤ 0 := neg_nonpos.mpr (abs_nonneg _)
  have hsx : (if ((a.x : ℤ)) < (b.x : ℤ) then (1 : ℤ) else -1) = 1
      ∨ (if ((a.x : ℤ)) < (b.x : ℤ) then (1 : ℤ) else -1) = -1 := by
    split <;> simp
  have hsy : (if ((a.y : ℤ)) < (b.y : ℤ) then (1 : ℤ) else -1) = 1
      ∨ (if ((a.y : ℤ)) < (b.y : ℤ) then (1 : ℤ) else -1) = -1 := by
    split <;> simp
  have hx1 : (if ((a.x : ℤ)) < (b.x : ℤ) then (1 : ℤ) else -1) = 1 → (a.x : ℤ) ≤ (b.x : ℤ) := by
    split <;> intro h <;> omega
  have hx2 : (if ((a.x : ℤ)) < (b.x : ℤ) then (1 : ℤ) else -1) = -1 → (b.x : ℤ) ≤ (a.x : ℤ) := by
    split <;> intro h <;> omega
  have hy1 : (if ((a.y : ℤ)) < (b.y : ℤ) then (1 : ℤ) else -1) = 1 → (a.y : ℤ) ≤ (b.y : ℤ) := by
    split <;> intro h <;> omega
  have hy2 : (if ((a.y : ℤ)) < (b.y : ℤ) then (1 : ℤ) else -1) = -1 → (b.y : ℤ) ≤ (a.y : ℤ) := by
    split <;> intro h <;> omega
  obtain ⟨out, hout, hb⟩ := bresGo_total (⟨(b.x : ℤ), (b.y : ℤ)⟩ : Point2 ℤ) _ _ _ _ hdx hdy
    hsx hsy (((b.x : ℤ) - (a.x : ℤ)).natAbs + ((b.y : ℤ) - (a.y : ℤ)).natAbs + 1)
    (⟨(a.x : ℤ), (a.y : ℤ)⟩ : Point2 ℤ)
    (|(b.x : ℤ) - (a.x : ℤ)| + -|(b.y : ℤ) - (a.y : ℤ)|)
    (Nat.lt_succ_self _) hx1 hx2 hy1 hy2
  refine ⟨out.map (fun p => (⟨p.x.toNat, p.y.toNat⟩ : Point2 ℕ)), ?_, ?_⟩
  · rw [hout]; rfl
  · intro q hq
    obtain ⟨qz, hqz, rfl⟩ := List.mem_map.mp hq
    obtain ⟨c1, c2, c3, c4⟩ := hb qz hqz
    refine ⟨?_, ?_, ?_⟩
    · rcases hsx with h | h
      · have hcc := c1 h; dsimp only at hcc ⊢; omega
      · have hcc := c2 h; dsimp only at hcc ⊢; omega
    · rcases hsy with h | h
      · have hcc := c3 h; dsimp only at hcc ⊢; omega
      · have hcc := c4 h; dsimp only at hcc ⊢; omega
    · rcases hsy with h | h
      · have hcc := c3 h; dsimp only at hcc ⊢; omega
      · have hcc := c4 h; dsimp only at hcc ⊢; omega

/-- Folding a fallible step over a list preserves an invariant and never
fails if each step preserves it. -/
theorem foldlM_option_inv {α β : Type} (Inv : β → Prop) (f : β → α → Option β)
    (xs : List α) (init : β) (hinit : Inv init)
    (hstep : ∀ st x, x ∈ xs → Inv st → ∃ st', f st x = some st' ∧ Inv st') :
    ∃ st', xs.foldlM f init = some st' ∧ Inv st' := by
  induction xs generalizing init with
  | nil => exact ⟨init, rfl, hinit⟩
  | cons x rest ih =>
    obtain ⟨st', hf, hinv'⟩ := hstep init x (List.mem_cons_self _ _) hinit
    obtain ⟨stf, hfold, hinvf⟩ := ih st' hinv'
      (fun st y hy h => hstep st y (List.mem_cons_of_mem _ hy) h)
    exact ⟨stf, by rw [List.foldlM_cons, hf]; exact hfold, hinvf⟩

/-- Rust closure `on_pixel` in `triangle_local_pixels`: the `usize`
subtraction `pos.y - y_lowest` and the slice index are fallible, and a panic
is modeled as `none`. -/
def onPixel (y_lowest : ℕ) (pairs : List (ℕ × ℕ)) (pos : Point2 ℕ) :
    Option (List (ℕ × ℕ)) :=
  if y_lowest ≤ pos.y then
    (pairs.get? (pos.y - y_lowest)).map (fun pr =>
      pairs.set (pos.y - y_lowest) (min pr.1 pos.x, max pr.2 pos.x))
  else none

/-- The final loop of `triangle_local_pixels`: row `index` is emitted at
height `index + y_lowest`; written as a recursion carrying the current
absolute `y`, which mirrors the Rust `enumerate` loop. -/
def expandRows (y : ℕ) : List (ℕ × ℕ) → List (Point2 ℕ)
  | [] => []
  | pr :: rest =>
    (rowPixels pr.1 pr.2).map (fun x => (⟨x, y⟩ : Point2 ℕ)) ++ expandRows (y + 1) rest

/-- Rust `triangle_local_pixels`: three Bresenham edges update per-row
`(low, high)` pairs initialized to `(usize::MAX, usize::MIN)`, then each row
is filled from low to high. -/
def triangleLocalPixels (p0 p1 p2 : Point2 ℕ) : Option (List (Point2 ℕ)) := do
  let y_lowest := min p0.y (min p1.y p2.y)
  let y_highest := max p0.y (max p1.y p2.y)
  let init := List.replicate (y_highest - y_lowest + 1) (USIZEMAX, 0)
  let l01 ← linePixels p0 p1
  let l12 ← linePixels p1 p2
  let l20 ← linePixels p2 p0
  let pairs ← (l01 ++ l12 ++ l20).foldlM (fun prs pos => onPixel y_lowest prs pos) init
  some (expandRows y_lowest pairs)

theorem expandRows_mem (prs : List (ℕ × ℕ)) :
    ∀ (y : ℕ) (q : Point2 ℕ), q ∈ expandRows y prs →
      ∃ pr ∈ prs, q.x ∈ rowPixels pr.1 pr.2 ∧ y ≤ q.y ∧ q.y < y + prs.length := by
  induction prs with
  | nil => intro y q hq; simp [expandRows] at hq
  | cons pr rest ih =>
    intro y q hq
    rw [expandRows] at hq
    rcases List.mem_append.mp hq with h1 | h2
    · obtain ⟨x, hx, rfl⟩ := List.mem_map.mp h1
      exact ⟨pr, List.mem_cons_self _ _, hx, le_refl _, by simp⟩
    · obtain ⟨pr', hpr', hrow, hy1, hy2⟩ := ih (y + 1) q h2
      exact ⟨pr', List.mem_cons_of_mem _ hpr', hrow, by omega,
        by simp only [List.length_cons]; omega⟩

theorem triangleLocalPixels_total (w h : ℕ) (p0 p1 p2 : Point2 ℕ)
    (hw : 0 < w)
    (h0x : p0.x < w) (h0y : p0.y < h) (h1x : p1.x < w) (h1y : p1.y < h)
    (h2x : p2.x < w) (h2y : p2.y < h) :
    ∃ l, triangleLocalPixels p0 p1 p2 = some l ∧ ∀ q ∈ l, q.x < w ∧ q.y < h := by
  obtain ⟨l01, e01, b01⟩ := linePixels_total p0 p1
  obtain ⟨l12, e12, b12⟩ := linePixels_total p1 p2
  obtain ⟨l20, e20, b20⟩ := linePixels_total p2 p0
  have hall : ∀ q ∈ l01 ++ l12 ++ l20,
      q.x < w ∧ min p0.y (min p1.y p2.y) ≤ q.y ∧ q.y ≤ max p0.y (max p1.y p2.y) := by
    intro q hq
    rcases List.mem_append.mp hq with hq' | hq3
    · rcases List.mem_append.mp hq' with hq1 | hq2
      · obtain ⟨hx, hy1, hy2⟩ := b01 q hq1; omega
      · obtain ⟨hx, hy1, hy2⟩ := b12 q hq2; omega
    · obtain ⟨hx, hy1, hy2⟩ := b20 q hq3; omega
  obtain ⟨pairs, hfold, hlen, hprs⟩ := foldlM_option_inv
    (fun prs => prs.length = max p0.y (max p1.y p2.y) - min p0.y (min p1.y p2.y) + 1
      ∧ ∀ pr ∈ prs, pr.2 < w ∨ pr = (USIZEMAX, 0))
    (fun prs pos => onPixel (min p0.y (min p1.y p2.y)) prs pos) (l01 ++ l12 ++ l20)
    (List.replicate (max p0.y (max p1.y p2.y) - min p0.y (min p1.y p2.y) + 1) (USIZEMAX, 0))
    ⟨List.length_replicate _ _, fun pr hpr => Or.inr (List.eq_of_mem_replicate hpr)⟩
    (by
      rintro prs pos hpos ⟨hlen, hinv⟩
      obtain ⟨hxw, hylo, hyhi⟩ := hall pos hpos
      have hidx : pos.y - min p0.y (min p1.y p2.y) < prs.length := by omega
      obtain ⟨pr, hget⟩ : ∃ pr,
          prs.get? (pos.y - min p0.y (min p1.y p2.y)) = some pr :=
        ⟨_, List.get?_eq_get hidx⟩
      refine ⟨prs.set (pos.y - p0.y ⊓ (p1.y ⊓ p2.y)) (min pr.1 pos.x, max pr.2 pos.x),
          ?_, ?_, ?_⟩
      · dsimp only
        rw [onPixel, if_pos hylo, hget]
        rfl
      · rw [List.length_set]; exact hlen
      · intro pr' hpr'
        rcases List.mem_or_eq_of_mem_set hpr' with hmem | hval
        · exact hinv pr' hmem
        · left
          have hprmem : pr ∈ prs := List.get?_mem hget
          rcases hinv pr hprmem with hlt | hini
          · rw [hval]; dsimp only; omega
          · rw [hval, hini]; dsimp only; omega)
  refine ⟨expandRows (min p0.y (min p1.y p2.y)) pairs, ?_, ?_⟩
  · rw [triangleLocalPixels]
    simp only [e01, e12, e20, Option.bind_eq_bind, Option.some_bind]
    rw [hfold]
    rfl
  · intro q hq
    obtain ⟨pr, hpr, hrow, hy1, hy2⟩ :=
      expandRows_mem pairs (min p0.y (min p1.y p2.y)) q hq
    rcases hprs pr hpr with hlt | hini
    · have hb := rowPixels_mem pr.1 pr.2 q.x hrow
      constructor <;> omega
    · rw [hini] at hrow
      have : ¬ (USIZEMAX ≤ 0) := by rw [USIZEMAX]; decide
      rw [rowPixels, if_neg this] at hrow
      simp at hrow

/-- Rust PPMImage::index_maybe. -/
def PPMImage.indexMaybe (img : PPMImage F) (pos : Point2 ℕ) : Option ℕ :=
  if pos.y < img.height ∧ pos.x < img.width then some (pos.x + pos.y * img.width)
  else none

/-- One write `self[pixel] = c.set(self[pixel])`: the Index/IndexMut panics
(position out of range, buffer index out of bounds) are modeled as none.
cset is the ColorRepr set closure (a constant for Color, a blend for
ColorAlpha). -/
def PPMImage.setPixelOpt (img : PPMImage F) (cset : Color → Color) (pos : Point2 ℕ) :
    Option (PPMImage F) :=
  match img.indexMaybe pos with
  | none => none
  | some i =>
    match img.data.get? i with
    | none => none
    | some old => some { img with data := img.data.set i (cset old) }

/-- The for_each write loop shared by line_thick, triangle_local and circle. -/
def PPMImage.writePixels (img : PPMImage F) (cset : Color → Color)
    (pixels : List (Point2 ℕ)) : Option (PPMImage F) :=
  pixels.foldlM (fun im pos => PPMImage.setPixelOpt im cset pos) img

theorem setPixelOpt_total (img : PPMImage F) (cset : Color → Color) (pos : Point2 ℕ)
    (hdata : img.data.length = img.width * img.height)
    (hx : pos.x < img.width) (hy : pos.y < img.height) :
    ∃ img', PPMImage.setPixelOpt img cset pos = some img'
      ∧ img'.width = img.width ∧ img'.height = img.height
      ∧ img'.data.length = img.width * img.height := by
  have hidx : pos.x + pos.y * img.width < img.data.length := by
    rw [hdata]
    calc pos.x + pos.y * img.width < img.width + pos.y * img.width := by omega
      _ = (pos.y + 1) * img.width := by ring
      _ ≤ img.height * img.width := Nat.mul_le_mul_right _ (by omega)
      _ = img.width * img.height := Nat.mul_comm _ _
  obtain ⟨old, hget⟩ : ∃ old, img.data.get? (pos.x + pos.y * img.width) = some old :=
    ⟨_, List.get?_eq_get hidx⟩
  refine ⟨{ img with data := img.data.set (pos.x + pos.y * img.width) (cset old) }, ?_,
    rfl, rfl, ?_⟩
  · rw [PPMImage.setPixelOpt, PPMImage.indexMaybe, if_pos ⟨hy, hx⟩]
    dsimp only
    rw [hget]
  · simp only [List.length_set]
    exact hdata

theorem writePixels_total (img : PPMImage F) (cset : Color → Color)
    (pixels : List (Point2 ℕ))
    (hdata : img.data.length = img.width * img.height)
    (hpix : ∀ q ∈ pixels, q.x < img.width ∧ q.y < img.height) :
    ∃ img', PPMImage.writePixels img cset pixels = some img'
      ∧ img'.width = img.width ∧ img'.height = img.height
      ∧ img'.data.length = img.width * img.height := by
  obtain ⟨img', hfold, hw, hh, hd⟩ := foldlM_option_inv
    (fun im => im.width = img.width ∧ im.height = img.height
      ∧ im.data.length = img.width * img.height)
    (fun im pos => PPMImage.setPixelOpt im cset pos) pixels img ⟨rfl, rfl, hdata⟩
    (by
      rintro im pos hpos ⟨hw, hh, hd⟩
      obtain ⟨hx, hy⟩ := hpix pos hpos
      obtain ⟨im', heq, hw', hh', hd'⟩ := setPixelOpt_total im cset pos
        (by rw [hd, hw, hh]) (by rw [hw]; exact hx) (by rw [hh]; exact hy)
      exact ⟨im', heq, by rw [hw', hw], by rw [hh', hh], by rw [hd', hw, hh]⟩)
  exact ⟨img', hfold, hw, hh, hd⟩

/-- Rust PPMImage::triangle_pixels: to_local each vertex, then rasterize. -/
def PPMImage.trianglePixels (img : PPMImage F) (p0 p1 p2 : Point2 F) :
    Option (List (Point2 ℕ)) :=
  triangleLocalPixels (img.toLocal p0) (img.toLocal p1) (img.toLocal p2)

theorem trianglePixels_total (img : PPMImage F) (p0 p1 p2 : Point2 F)
    (hw : 0 < img.width) (hh : 0 < img.height) :
    ∃ l, img.trianglePixels p0 p1 p2 = some l ∧
      ∀ q ∈ l, q.x < img.width ∧ q.y < img.height := by
  obtain ⟨h0x, h0y⟩ := toLocal_lt img p0 hw hh
  obtain ⟨h1x, h1y⟩ := toLocal_lt img p1 hw hh
  obtain ⟨h2x, h2y⟩ := toLocal_lt img p2 hw hh
  exact triangleLocalPixels_total img.width img.height _ _ _ hw h0x h0y h1x h1y h2x h2y

/-- The f64 value of Rust's f64::consts::PI, an exactly representable
rational (884279719003555 / 2^48). -/
def piF : F := F.finite (884279719003555 / 281474976710656)

/-- Modelled from the spec: Point2::rotate (used by the triangle-based thick
line and described in the spec as rotating a vector to the segment's
direction; not present in src/point.rs) — a standard 2-D rotation by the
given angle, with sine and cosine supplied as parameters because the f64
model leaves transcendental functions uninterpreted. -/
def rotateF (sinF cosF : F → F) (p : Point2 F) (angle : F) : Point2 F :=
  ⟨F.sub (F.mul p.x (cosF angle)) (F.mul p.y (sinF angle)),
   F.add (F.mul p.x (sinF angle)) (F.mul p.y (cosF angle))⟩

/-- The direction closure of Rust line_thick_pixels. -/
def directionF (sinF cosF : F → F) (img : PPMImage F) (angle thickness : F)
    (raw : Point2 F) : Point2 F :=
  (withoutAspectF img (rotateF sinF cosF raw angle)).smul thickness

/-- The point_at closure of Rust line_thick_pixels (cap fan vertex i with
x_scale ±1; cap_points = 3). -/
def capPointAt (sinF cosF : F → F) (img : PPMImage F) (angle thickness : F)
    (i : ℕ) (x_scale : F) : Point2 F :=
  let p_n := F.div (F.finite i) (F.finite 4)
  let p_s := F.sub (F.mul p_n (F.finite 2)) (F.finite 1)
  let p := F.mul p_n piF
  directionF sinF cosF img angle thickness ⟨F.mul (sinF p) x_scale, p_s⟩

/-- The triangle fan submitted by Rust line_thick_pixels, in loop order:
for each cap index i in 0..3 the p0-side and p1-side cap triangles, then the
two body triangles. -/
def lineThickTriangles (sinF cosF : F → F) (atan2F : F → F → F)
    (img : PPMImage F) (p0 p1 : Point2 F) (thickness : F) :
    List (Point2 F × Point2 F × Point2 F) :=
  let diff := p1.sub p0
  let angle := F.neg (atan2F diff.y diff.x)
  let up := directionF sinF cosF img angle thickness ⟨F.finite 0, F.finite 1⟩
  let capTris := (List.range 3).foldl (fun acc i =>
    let middle := capPointAt sinF cosF img angle thickness (i + 1) (F.finite 1)
    let endp := capPointAt sinF cosF img angle thickness (i + 2) (F.finite 1)
    let middle_n := capPointAt sinF cosF img angle thickness (i + 1) (F.finite (-1))
    let end_n := capPointAt sinF cosF img angle thickness (i + 2) (F.finite (-1))
    acc ++ [(p0.sub up, p0.add middle_n, p0.add end_n),
            (p1.sub up, p1.add middle, p1.add endp)]) []
  capTris ++ [(p0.add up, p1.add up, p0.sub up), (p0.sub up, p1.add up, p1.sub up)]

/-- Rasterize a batch of triangles, concatenating their pixels in order.
Rust collects these into a HashSet; the model keeps a list with duplicates,
which writes the same colors (each write in one call uses the same color
function) and panics in exactly the same situations. -/
def trianglesPixelsOpt (img : PPMImage F) (ts : List (Point2 F × Point2 F × Point2 F)) :
    Option (List (Point2 ℕ)) :=
  ts.foldlM (fun acc t => (img.trianglePixels t.1 t.2.1 t.2.2).map (fun l => acc ++ l)) []

theorem trianglesPixelsOpt_total (img : PPMImage F)
    (ts : List (Point2 F × Point2 F × Point2 F))
    (hw : 0 < img.width) (hh : 0 < img.height) :
    ∃ l, trianglesPixelsOpt img ts = some l
      ∧ ∀ q ∈ l, q.x < img.width ∧ q.y < img.height := by
  obtain ⟨l, hfold, hinv⟩ := foldlM_option_inv
    (fun acc => ∀ q ∈ acc, q.x < img.width ∧ q.y < img.height)
    (fun acc t => (img.trianglePixels t.1 t.2.1 t.2.2).map (fun l => acc ++ l)) ts []
    (by intro q hq; simp at hq)
    (by
      intro acc t ht hinv
      obtain ⟨l, hl, hb⟩ := trianglePixels_total img t.1 t.2.1 t.2.2 hw hh
      refine ⟨acc ++ l, ?_, ?_⟩
      · dsimp only
        rw [hl]
        rfl
      · intro q hq
        rcases List.mem_append.mp hq with h | h
        · exact hinv q h
        · exact hb q h)
  exact ⟨l, hfold, hinv⟩

/-- Rust PPMImage::line_thick_pixels. -/
def lineThickPixelsOpt (sinF cosF : F → F) (atan2F : F → F → F)
    (img : PPMImage F) (p0 p1 : Point2 F) (thickness : F) :
    Option (List (Point2 ℕ)) :=
  trianglesPixelsOpt img (lineThickTriangles sinF cosF atan2F img p0 p1 thickness)

/-- Rust PPMImage::line_thick: rasterize, then write each pixel. -/
def lineThickOpt (sinF cosF : F → F) (atan2F : F → F → F)
    (img : PPMImage F) (p0 p1 : Point2 F) (thickness : F) (cset : Color → Color) :
    Option (PPMImage F) :=
  (lineThickPixelsOpt sinF cosF atan2F img p0 p1 thickness).bind
    (fun pixels => img.writePixels cset pixels)

/-- The triangle fan submitted by Rust PPMImage::circle (lod = 9). -/
def circleTriangles (sinF cosF : F → F) (img : PPMImage F)
    (pos : Point2 F) (size : F) : List (Point2 F × Point2 F × Point2 F) :=
  let pointAt := fun (i : ℕ) =>
    let a := F.mul (F.div (F.finite i) (F.finite 9)) (F.mul (F.finite 2) piF)
    let size' := withoutAspectF img (Point2.rep size)
    (Point2.mul ⟨sinF a, cosF a⟩ size').add pos
  (List.range 9).foldl (fun acc i => acc ++ [(pointAt i, pos, pointAt (i + 1))]) []

/-- Rust PPMImage::circle: rasterize the fan, then write each pixel. -/
def circleOpt (sinF cosF : F → F) (img : PPMImage F)
    (pos : Point2 F) (size : F) (cset : Color → Color) : Option (PPMImage F) :=
  (trianglesPixelsOpt img (circleTriangles sinF cosF img pos size)).bind
    (fun pixels => img.writePixels cset pixels)

theorem lineThickOpt_total (sinF cosF : F → F) (atan2F : F → F → F)
    (img : PPMImage F) (p0 p1 : Point2 F) (thickness : F) (cset : Color → Color)
    (hw : 0 < img.width) (hh : 0 < img.height)
    (hdata : img.data.length = img.width * img.height) :
    ∃ img', lineThickOpt sinF cosF atan2F img p0 p1 thickness cset = some img' := by
  obtain ⟨l, hl, hb⟩ := trianglesPixelsOpt_total img
    (lineThickTriangles sinF cosF atan2F img p0 p1 thickness) hw hh
  obtain ⟨img', himg, _⟩ := writePixels_total img cset l hdata hb
  exact ⟨img', by rw [lineThickOpt, lineThickPixelsOpt, hl]; exact himg⟩

theorem circleOpt_total (sinF cosF : F → F) (img : PPMImage F)
    (pos : Point2 F) (size : F) (cset : Color → Color)
    (hw : 0 < img.width) (hh : 0 < img.height)
    (hdata : img.data.length = img.width * img.height) :
    ∃ img', circleOpt sinF cosF img pos size cset = some img' := by
  obtain ⟨l, hl, hb⟩ := trianglesPixelsOpt_total img
    (circleTriangles sinF cosF img pos size) hw hh
  obtain ⟨img', himg, _⟩ := writePixels_total img cset l hdata hb
  exact ⟨img', by rw [circleOpt, hl]; exact himg⟩

/-- GrapherDrawer::position over the f64 model; powfF is the uninterpreted
f64 powf applied only when log_scale is set. -/
def positionF (powfF : F → F → F) (g : Grapher) (point : Point2 F) : Point2 F :=
  let x := F.div (F.sub point.x g.left) (F.sub g.right g.left)
  let y := F.div (F.sub point.y g.bottom) (F.sub g.top g.bottom)
  let y := match g.config.log_scale with
    | some scale => powfF y scale
    | none => y
  ⟨x, y⟩

/-- Padding (a BoundingBox of normalized frame corners), from src/graph.rs. -/
structure PaddingF where
  bottom_left : Point2 F
  top_right : Point2 F

/-- BoundingBox::area (top_right - bottom_left). -/
def PaddingF.area (p : PaddingF) : Point2 F := p.top_right.sub p.bottom_left

/-- GrapherDrawer::fit: point * pad.area() + pad.bottom_left. -/
def fitF (pad : PaddingF) (point : Point2 F) : Point2 F :=
  (point.mul pad.area).add pad.bottom_left

/-- The padding computed by Grapher::to_drawer_with for a width x height
image (pad = 0.025, x inset 0.2; the f64 literals are idealized as the exact
rationals they denote, consistently with the rest of the model). -/
def toDrawerPad (width height : ℕ) : PaddingF :=
  let aspect := F.div (F.finite width) (F.finite height)
  ⟨⟨F.div (F.finite (1/5)) aspect, F.finite (1/40)⟩,
   ⟨F.sub (F.finite 1) (F.div (F.finite (1/40)) aspect),
    F.sub (F.finite 1) (F.finite (1/40))⟩⟩

/--
C4.  The concrete scenario of the spec: ingesting the two identical
single-sample series ["5.0"] and ["5.0"] with min_avg unset yields
bottom == top == 5 (with both stored points at (1, 5)); position applied to
such a point divides by top - bottom = 0 and yields NaN for the y component
(and 1 for x); and the resulting non-finite position fed through the drawing
pipeline does not panic for any interpretation of the transcendental
helpers: to_local clamps it to the pixel (3950, 0) on the 4000 x 2000
buffer, and the thick-line and circle primitives applied to it run to
completion (no none from any index or usize subtraction, the NaN merely
propagating through the vertex arithmetic).
-/
theorem claim_C4 (sinF cosF : F → F) (atan2F powfF : F → F → F) :
    (((Grapher.parseLines (Grapher.new GrapherConfig.default)
        [SrcLine.sample (F.finite 5)]).bind
      (fun g1 => g1.parseLines [SrcLine.sample (F.finite 5)])).map
        (fun g => (g.bottom, g.top,
          g.graphs.map (fun gr => gr.points_slice.map (fun p => p.pos)),
          positionF powfF g ⟨F.finite 1, F.finite 5⟩)) =
      some (F.finite 5, F.finite 5,
        [[(⟨F.finite 1, F.finite 5⟩ : Point2 F)], [⟨F.finite 1, F.finite 5⟩]],
        (⟨F.finite 1, F.nan⟩ : Point2 F)))
    ∧ (PPMImage.newF 4000 2000 ⟨255, 255, 255⟩).toLocal
        (fitF (toDrawerPad 4000 2000) ⟨F.finite 1, F.nan⟩) = ⟨3950, 0⟩
    ∧ (∃ img', lineThickOpt sinF cosF atan2F
        (PPMImage.newF 4000 2000 ⟨255, 255, 255⟩)
        (fitF (toDrawerPad 4000 2000) ⟨F.finite 1, F.nan⟩)
        (fitF (toDrawerPad 4000 2000) ⟨F.finite 1, F.nan⟩)
        (F.finite (1 / 200)) (fun _ => ⟨210, 210, 210⟩) = some img')
    ∧ (∃ img', circleOpt sinF cosF
        (PPMImage.newF 4000 2000 ⟨255, 255, 255⟩)
        (fitF (toDrawerPad 4000 2000) ⟨F.finite 1, F.nan⟩)
        (F.finite (3 / 400)) (fun old => old) = some img') := by
  have hdata : (PPMImage.newF 4000 2000 ⟨255, 255, 255⟩).data.length =
      (PPMImage.newF 4000 2000 ⟨255, 255, 255⟩).width *
      (PPMImage.newF 4000 2000 ⟨255, 255, 255⟩).height := by
    show (List.replicate (4000 * 2000) (⟨255, 255, 255⟩ : Color)).length = 4000 * 2000
    rw [List.length_replicate]
  refine ⟨?_, ?_, ?_, ?_⟩
  · norm_num [Grapher.parseLines, Grapher.new, GrapherConfig.default, ParseSt.init,
      parseLine, GraphBuilder.new, GraphBuilder.push, GraphBuilder.completeOpt,
      sortOpt, insertOpt, F.partialCmp, F.add, F.gt_f64MAX, F.min_f64MAX,
      F.lt_f64MAX_iff, F.f64MAX_lt_iff, F.max_finite, F.min_finite, F.gt_finite,
      Grapher.fitGraph, Graph.last, Graph.points_slice, Option.bind,
      positionF, F.sub, F.div, F.neg]
  · norm_num [PPMImage.newF, PPMImage.toLocal, toLocalF, fitF, toDrawerPad,
      PaddingF.area, Point2.mul, Point2.add, Point2.sub, F.mul, F.add, F.sub, F.div,
      F.neg, F.add_def, F.sub_def, F.mul_def, F.div_def, F.neg_def,
      F.toUSize, USIZEMAX]
    decide
  · exact lineThickOpt_total sinF cosF atan2F _ _ _ _ _
      (by norm_num [PPMImage.newF]) (by norm_num [PPMImage.newF]) hdata
  · exact circleOpt_total sinF cosF _ _ _ _
      (by norm_num [PPMImage.newF]) (by norm_num [PPMImage.newF]) hdata

/-- with_aspect over the real-valued image model. -/
noncomputable def withAspectR (img : PPMImage ℝ) (p : Point2 ℝ) : Point2 ℝ :=
  if img.width_bigger then ⟨p.x * img.aspect, p.y⟩ else ⟨p.x, p.y * img.aspect⟩

/-- Modelled from the spec: Point2::rotate over ℝ (the deferred drawer
transforms the probe point into the rotated local frame of the line; the
function is not in src/src/point.rs), a standard 2-D rotation. -/
noncomputable def rotR (p : Point2 ℝ) (angle : ℝ) : Point2 ℝ :=
  ⟨p.x * Real.cos angle - p.y * Real.sin angle,
   p.x * Real.sin angle + p.y * Real.cos angle⟩

/-- SignedDistance::circle at an already-translated probe point (hypot
idealized as the Euclidean norm). -/
noncomputable def sdCircle (p : Point2 ℝ) (size : ℝ) : ℝ :=
  Real.sqrt (p.x ^ 2 + p.y ^ 2) - size

/-- SignedDistance::rectangle. -/
noncomputable def sdRectangle (p : Point2 ℝ) (size : ℝ) : ℝ :=
  let dx := |p.x| - size
  let dy := |p.y| - size
  Real.sqrt (max dx 0 ^ 2 + max dy 0 ^ 2) + min (max dx dy) 0

theorem rotR_norm (p : Point2 ℝ) (angle : ℝ) :
    (rotR p angle).x ^ 2 + (rotR p angle).y ^ 2 = p.x ^ 2 + p.y ^ 2 := by
  have h := Real.sin_sq_add_cos_sq angle
  simp only [rotR]
  ring_nf
  nlinarith [h]

theorem sdCircle_neg_iff (p : Point2 ℝ) (s : ℝ) (hs : 0 < s) :
    sdCircle p s < 0 ↔ p.x ^ 2 + p.y ^ 2 < s ^ 2 := by
  rw [sdCircle, sub_neg, Real.sqrt_lt' hs]

theorem sdRectangle_neg_iff (p : Point2 ℝ) (s : ℝ) :
    sdRectangle p s < 0 ↔ |p.x| < s ∧ |p.y| < s := by
  rw [sdRectangle]
  rcases lt_or_le (|p.x|) s with hx | hx
  · rcases lt_or_le (|p.y|) s with hy | hy
    · have h1 : max (|p.x| - s) 0 = 0 := max_eq_right (by linarith)
      have h2 : max (|p.y| - s) 0 = 0 := max_eq_right (by linarith)
      have h3 : max (|p.x| - s) (|p.y| - s) < 0 := max_lt (by linarith) (by linarith)
      have h5 : min (max (|p.x| - s) (|p.y| - s)) 0 = max (|p.x| - s) (|p.y| - s) :=
        min_eq_left (le_of_lt h3)
      rw [h1, h2, h5]
      rw [show ((0 : ℝ) ^ 2 + 0 ^ 2) = 0 by norm_num, Real.sqrt_zero, zero_add]
      exact ⟨fun _ => ⟨hx, hy⟩, fun _ => h3⟩
    · have h3 : 0 ≤ max (|p.x| - s) (|p.y| - s) := le_max_of_le_right (by linarith)
      have h4 : min (max (|p.x| - s) (|p.y| - s)) 0 = 0 := min_eq_right h3
      rw [h4]
      constructor
      · intro hlt
        exfalso
        have := Real.sqrt_nonneg (max (|p.x| - s) 0 ^ 2 + max (|p.y| - s) 0 ^ 2)
        linarith
      · rintro ⟨_, hy2⟩
        exact ((not_lt.mpr hy) hy2).elim
  · have h3 : 0 ≤ max (|p.x| - s) (|p.y| - s) := le_max_of_le_left (by linarith)
    have h4 : min (max (|p.x| - s) (|p.y| - s)) 0 = 0 := min_eq_right h3
    rw [h4]
    constructor
    · intro hlt
      exfalso
      have := Real.sqrt_nonneg (max (|p.x| - s) 0 ^ 2 + max (|p.y| - s) 0 ^ 2)
      linarith
    · rintro ⟨hx2, _⟩
      exact ((not_lt.mpr hx) hx2).elim

/-- A stored Line of the deferred SDF drawer (src/image.rs Line), with the
precomputed rotation, half length, length-to-thickness ratio and squared
clip distance. -/
structure LineR where
  p0 : Point2 ℝ
  p1 : Point2 ℝ
  thickness : ℝ
  c : Color
  rotation : ℝ
  half_length : ℝ
  local_length : ℝ
  clip_distance : ℝ

/-- DeferredSDFDrawer::line: aspect-correct the endpoints and precompute the
derived fields; atan2R is the uninterpreted f64 atan2. -/
noncomputable def mkLine (atan2R : ℝ → ℝ → ℝ) (img : PPMImage ℝ)
    (p0 p1 : Point2 ℝ) (thickness : ℝ) (c : Color) : LineR :=
  let q0 := withAspectR img p0
  let q1 := withAspectR img p1
  let off := q1.sub q0
  let length := Real.sqrt (off.x ^ 2 + off.y ^ 2)
  ⟨q0, q1, thickness, c, atan2R off.y off.x, length / 2, length / 2 / thickness,
   (off.x ^ 2 + off.y ^ 2) + 2 * length * thickness + thickness ^ 2⟩

/-- The body probe of sdf_lines: translate by p0, rotate by the stored
rotation, translate by (half_length, 0), scale by (local_length, 1). -/
noncomputable def bodyProbe (l : LineR) (curr : Point2 ℝ) : Point2 ℝ :=
  let p := rotR (curr.sub l.p0) l.rotation
  ⟨(p.x - l.half_length) / l.local_length, p.y / 1⟩

/-- The membership test the spec names: either endpoint-cap circle SDF or
the body rounded-rectangle SDF is negative at the probe point. -/
noncomputable def specHit (l : LineR) (curr : Point2 ℝ) : Prop :=
  sdCircle (curr.sub l.p0) l.thickness < 0
    ∨ sdCircle (curr.sub l.p1) l.thickness < 0
    ∨ sdRectangle (bodyProbe l curr) l.thickness < 0

/-- The code path of sdf_lines for one line: the squared-distance clip
early-reject, then the cap-or-body test. -/
noncomputable def codeHit (l : LineR) (curr : Point2 ℝ) : Prop :=
  ¬ ((curr.sub l.p0).x ^ 2 + (curr.sub l.p0).y ^ 2 > l.clip_distance)
    ∧ specHit l curr

/-- A well-formed stored line: positive thickness, distinct aspect-corrected
endpoints, and derived fields consistent with the endpoints, exactly as
DeferredSDFDrawer::line computes them. -/
def LineR.wf (l : LineR) : Prop :=
  0 < l.thickness ∧ l.p0 ≠ l.p1
    ∧ l.half_length = Real.sqrt ((l.p1.sub l.p0).x ^ 2 + (l.p1.sub l.p0).y ^ 2) / 2
    ∧ l.local_length = l.half_length / l.thickness
    ∧ l.clip_distance = ((l.p1.sub l.p0).x ^ 2 + (l.p1.sub l.p0).y ^ 2)
        + 2 * Real.sqrt ((l.p1.sub l.p0).x ^ 2 + (l.p1.sub l.p0).y ^ 2) * l.thickness
        + l.thickness ^ 2

theorem mkLine_wf (atan2R : ℝ → ℝ → ℝ) (img : PPMImage ℝ) (p0 p1 : Point2 ℝ)
    (thickness : ℝ) (c : Color) (hth : 0 < thickness)
    (hne : withAspectR img p0 ≠ withAspectR img p1) :
    (mkLine atan2R img p0 p1 thickness c).wf := by
  refine ⟨hth, hne, rfl, rfl, rfl⟩

theorem clip_cap0 (dx dy len th : ℝ) (hth : 0 < th) (hlen : 0 ≤ len)
    (h : dx ^ 2 + dy ^ 2 < th ^ 2) :
    dx ^ 2 + dy ^ 2 ≤ len ^ 2 + 2 * len * th + th ^ 2 := by
  nlinarith [mul_nonneg hlen hth.le, sq_nonneg len]

theorem clip_cap1 (ex ey ox oy len th : ℝ) (hth : 0 < th) (hlen : 0 ≤ len)
    (hlen2 : len ^ 2 = ox ^ 2 + oy ^ 2) (h : ex ^ 2 + ey ^ 2 < th ^ 2) :
    (ex + ox) ^ 2 + (ey + oy) ^ 2 ≤ (ox ^ 2 + oy ^ 2) + 2 * len * th + th ^ 2 := by
  have hlag : (ex * ox + ey * oy) ^ 2 ≤ len ^ 2 * (ex ^ 2 + ey ^ 2) := by
    nlinarith [sq_nonneg (ex * oy - ey * ox)]
  have ht' : ex * ox + ey * oy ≤ len * th := by
    nlinarith [hlag, mul_nonneg hlen hth.le, sq_nonneg (len * th + (ex * ox + ey * oy)),
      sq_nonneg (len * th - (ex * ox + ey * oy)), sq_nonneg len, sq_nonneg ex, sq_nonneg ey]
  nlinarith [ht', h, hlen2]

theorem clip_body (rx ry hl th : ℝ) (hth : 0 < th) (hhl : 0 < hl)
    (hx : |rx - hl| < hl) (hy : |ry| < th) :
    rx ^ 2 + ry ^ 2 ≤ (2 * hl) ^ 2 + 2 * (2 * hl) * th + th ^ 2 := by
  rw [abs_lt] at hx hy
  nlinarith [hx.1, hx.2, hy.1, hy.2, mul_pos hhl hth]

theorem Point2.ext2 {α : Type} (p q : Point2 α) (hx : p.x = q.x) (hy : p.y = q.y) :
    p = q := by
  cases p
  cases q
  simp_all

theorem codeHit_iff_specHit (l : LineR) (curr : Point2 ℝ) (hwf : l.wf) :
    codeHit l curr ↔ specHit l curr := by
  obtain ⟨hth, hne, hhl, hll, hclip⟩ := hwf
  constructor
  · exact fun h => h.2
  intro hs
  refine ⟨?_, hs⟩
  rw [not_lt, hclip]
  have hsum_nn : (0 : ℝ) ≤ (l.p1.sub l.p0).x ^ 2 + (l.p1.sub l.p0).y ^ 2 := by positivity
  have hlen_nn := Real.sqrt_nonneg ((l.p1.sub l.p0).x ^ 2 + (l.p1.sub l.p0).y ^ 2)
  have hlen2 : Real.sqrt ((l.p1.sub l.p0).x ^ 2 + (l.p1.sub l.p0).y ^ 2) ^ 2 =
      (l.p1.sub l.p0).x ^ 2 + (l.p1.sub l.p0).y ^ 2 := Real.sq_sqrt hsum_nn
  rcases hs with hc0 | hc1 | hb
  · rw [sdCircle_neg_iff _ _ hth] at hc0
    have := clip_cap0 (curr.sub l.p0).x (curr.sub l.p0).y
      (Real.sqrt ((l.p1.sub l.p0).x ^ 2 + (l.p1.sub l.p0).y ^ 2)) l.thickness
      hth hlen_nn hc0
    rw [hlen2] at this
    linarith
  · rw [sdCircle_neg_iff _ _ hth] at hc1
    have hre : (curr.sub l.p0).x = (curr.sub l.p1).x + (l.p1.sub l.p0).x := by
      simp only [Point2.sub]; ring
    have hre' : (curr.sub l.p0).y = (curr.sub l.p1).y + (l.p1.sub l.p0).y := by
      simp only [Point2.sub]; ring
    rw [hre, hre']
    exact clip_cap1 _ _ _ _ _ _ hth hlen_nn hlen2 hc1
  · rw [sdRectangle_neg_iff] at hb
    obtain ⟨hbx, hby⟩ := hb
    have hsum_pos : 0 < (l.p1.sub l.p0).x ^ 2 + (l.p1.sub l.p0).y ^ 2 := by
      rcases lt_or_eq_of_le hsum_nn with h | h
      · exact h
      · exfalso
        apply hne
        have hx0 : (l.p1.sub l.p0).x = 0 := by
          nlinarith [sq_nonneg (l.p1.sub l.p0).x, sq_nonneg (l.p1.sub l.p0).y]
        have hy0 : (l.p1.sub l.p0).y = 0 := by
          nlinarith [sq_nonneg (l.p1.sub l.p0).x, sq_nonneg (l.p1.sub l.p0).y]
        simp only [Point2.sub] at hx0 hy0
        exact Point2.ext2 _ _ (by linarith) (by linarith)
    have hlen_pos : 0 < Real.sqrt ((l.p1.sub l.p0).x ^ 2 + (l.p1.sub l.p0).y ^ 2) :=
      Real.sqrt_pos.mpr hsum_pos
    have hhl_pos : 0 < l.half_length := by
      rw [hhl]; exact div_pos hlen_pos two_pos
    have hll_pos : 0 < l.local_length := by
      rw [hll]; exact div_pos hhl_pos hth
    have hbx' : |(rotR (curr.sub l.p0) l.rotation).x - l.half_length| < l.half_length := by
      have h1 : |((rotR (curr.sub l.p0) l.rotation).x - l.half_length) / l.local_length|
          < l.thickness := by simpa [bodyProbe] using hbx
      rw [abs_div, abs_of_pos hll_pos, div_lt_iff hll_pos] at h1
      calc |(rotR (curr.sub l.p0) l.rotation).x - l.half_length|
          < l.thickness * l.local_length := h1
        _ = l.half_length := by rw [hll]; field_simp
    have hby' : |(rotR (curr.sub l.p0) l.rotation).y| < l.thickness := by
      simpa [bodyProbe] using hby
    have hnorm := rotR_norm (curr.sub l.p0) l.rotation
    have hkey := clip_body (rotR (curr.sub l.p0) l.rotation).x
      (rotR (curr.sub l.p0) l.rotation).y l.half_length l.thickness hth hhl_pos hbx' hby'
    have h2hl : 2 * l.half_length =
        Real.sqrt ((l.p1.sub l.p0).x ^ 2 + (l.p1.sub l.p0).y ^ 2) := by
      rw [hhl]; ring
    rw [← hnorm]
    calc (rotR (curr.sub l.p0) l.rotation).x ^ 2 + (rotR (curr.sub l.p0) l.rotation).y ^ 2
        ≤ (2 * l.half_length) ^ 2 + 2 * (2 * l.half_length) * l.thickness
          + l.thickness ^ 2 := hkey
      _ = ((l.p1.sub l.p0).x ^ 2 + (l.p1.sub l.p0).y ^ 2)
          + 2 * Real.sqrt ((l.p1.sub l.p0).x ^ 2 + (l.p1.sub l.p0).y ^ 2) * l.thickness
          + l.thickness ^ 2 := by rw [h2hl, hlen2]

open Classical in
/-- The inner reverse scan of sdf_lines: first line (in the given order,
which the caller reverses) whose code path hits, its color; the break. -/
noncomputable def firstHitCode (curr : Point2 ℝ) : List LineR → Option Color
  | [] => none
  | l :: rest => if codeHit l curr then some l.c else firstHitCode curr rest

open Classical in
/-- The spec-side scan: same first-hit-wins order, but membership is the pure
cap-or-body test with no clip rejection. -/
noncomputable def firstHitSpec (curr : Point2 ℝ) : List LineR → Option Color
  | [] => none
  | l :: rest => if specHit l curr then some l.c else firstHitSpec curr rest

theorem firstHit_eq (curr : Point2 ℝ) :
    ∀ lines : List LineR, (∀ l ∈ lines, l.wf) →
      firstHitCode curr lines = firstHitSpec curr lines := by
  intro lines
  induction lines with
  | nil => intro _; rfl
  | cons l rest ih =>
    intro h
    have hiff := codeHit_iff_specHit l curr (h l (List.mem_cons_self _ _))
    by_cases hc : specHit l curr
    · rw [firstHitCode, firstHitSpec, if_pos (hiff.mpr hc), if_pos hc]
    · rw [firstHitCode, firstHitSpec, if_neg (fun hcc => hc (hiff.mp hcc)), if_neg hc]
      exact ih (fun x hx => h x (List.mem_cons_of_mem _ hx))

/-- One pixel step of the sdf_lines double loop: the state is (buffer,
running index i); a hit writes its color at i (the get_unchecked write,
a no-op out of bounds, which the size hypotheses of the claim exclude), and
i always advances. -/
noncomputable def sdfStep (f : ℕ → Option Color) (st : List Color × ℕ) (x : ℕ) :
    List Color × ℕ :=
  match f x with
  | some c => (st.1.set st.2 c, st.2 + 1)
  | none => (st.1, st.2 + 1)

theorem sdfStep_row (f : ℕ → Option Color) :
    ∀ (n : ℕ) (data : List Color) (i0 : ℕ),
      ((List.range n).foldl (sdfStep f) (data, i0)).2 = i0 + n
      ∧ ((List.range n).foldl (sdfStep f) (data, i0)).1.length = data.length
      ∧ (∀ j, j < i0 ∨ i0 + n ≤ j →
          ((List.range n).foldl (sdfStep f) (data, i0)).1.get? j = data.get? j)
      ∧ (∀ x, x < n → i0 + n ≤ data.length →
          ((List.range n).foldl (sdfStep f) (data, i0)).1.get? (i0 + x) =
            match f x with
            | some c => some c
            | none => data.get? (i0 + x)) := by
  intro n
  induction n with
  | zero =>
    intro data i0
    refine ⟨by simp, by simp, fun j _ => by simp, fun x hx _ => absurd hx (by omega)⟩
  | succ n ih =>
    intro data i0
    obtain ⟨hsnd, hlen, huntouched, hat⟩ := ih data i0
    rw [List.range_succ, List.foldl_append, List.foldl_cons, List.foldl_nil]
    rcases hfn : f n with _ | c
    · simp only [sdfStep, hfn]
      refine ⟨by rw [hsnd]; omega, hlen, ?_, ?_⟩
      · intro j hj
        exact huntouched j (by omega)
      · intro x hx hle
        rcases Nat.lt_or_ge x n with hxn | hxn
        · rw [hat x hxn (by omega)]
        · have hxe : x = n := by omega
          subst hxe
          rw [hfn, huntouched (i0 + x) (by omega)]
    · simp only [sdfStep, hfn]
      have hne2 : ((List.range n).foldl (sdfStep f) (data, i0)).2 = i0 + n := hsnd
      refine ⟨by rw [hne2]; omega, by rw [List.length_set]; exact hlen, ?_, ?_⟩
      · intro j hj
        rw [hne2, List.get?_eq_getElem?, List.getElem?_set_ne (by omega),
          ← List.get?_eq_getElem?]
        exact huntouched j (by omega)
      · intro x hx hle
        rcases Nat.lt_or_ge x n with hxn | hxn
        · rw [hne2, List.get?_eq_getElem?, List.getElem?_set_ne (by omega),
            ← List.get?_eq_getElem?]
          rw [hat x hxn (by omega)]
        · have hxe : x = n := by omega
          subst hxe
          rw [hne2, hfn, List.get?_eq_getElem?,
            List.getElem?_set_self (by rw [hlen]; omega)]

theorem sdfRows_spec (g : ℕ → ℕ → Option Color) (w : ℕ) :
    ∀ (m : ℕ) (data : List Color),
      (((List.range m).foldl
          (fun st y => (List.range w).foldl (sdfStep (fun x => g x y)) st)
          (data, 0)).2 = m * w)
      ∧ (((List.range m).foldl
          (fun st y => (List.range w).foldl (sdfStep (fun x => g x y)) st)
          (data, 0)).1.length = data.length)
      ∧ (∀ j, m * w ≤ j →
          ((List.range m).foldl
            (fun st y => (List.range w).foldl (sdfStep (fun x => g x y)) st)
            (data, 0)).1.get? j = data.get? j)
      ∧ (∀ y x, y < m → x < w → m * w ≤ data.length →
          ((List.range m).foldl
            (fun st y => (List.range w).foldl (sdfStep (fun x => g x y)) st)
            (data, 0)).1.get? (y * w + x) =
            match g x y with
            | some c => some c
            | none => data.get? (y * w + x)) := by
  intro m
  induction m with
  | zero =>
    intro data
    refine ⟨by simp, by simp, fun j _ => by simp, fun y x hy _ _ => absurd hy (by omega)⟩
  | succ m ih =>
    intro data
    obtain ⟨hsnd, hlen, huntouched, hat⟩ := ih data
    rw [List.range_succ, List.foldl_append, List.foldl_cons, List.foldl_nil]
    rcases hp : (List.range m).foldl
        (fun st y => (List.range w).foldl (sdfStep (fun x => g x y)) st)
        (data, 0) with ⟨d', i'⟩
    rw [hp] at hsnd hlen huntouched hat
    simp only at hsnd hlen huntouched hat
    obtain ⟨rsnd, rlen, runtouched, rat⟩ := sdfStep_row (fun x => g x m) w d' i'
    have hexp : (m + 1) * w = m * w + w := by ring
    refine ⟨?_, ?_, ?_, ?_⟩
    · rw [rsnd, hsnd, hexp]
    · rw [rlen, hlen]
    · intro j hj
      have hj' : m * w + w ≤ j := by rw [← hexp]; exact hj
      rw [runtouched j (Or.inr (by rw [hsnd]; exact hj'))]
      exact huntouched j (by linarith)
    · intro y x hy hx hle
      have hle' : m * w + w ≤ data.length := by rw [← hexp]; exact hle
      rcases Nat.lt_or_ge y m with hym | hym
      · have hidx : y * w + x < m * w := by
          calc y * w + x < y * w + w := by omega
            _ = (y + 1) * w := by ring
            _ ≤ m * w := Nat.mul_le_mul_right w (by omega)
        rw [runtouched (y * w + x) (Or.inl (by rw [hsnd]; exact hidx))]
        exact hat y x hym hx (by linarith)
      · have hye : y = m := by omega
        subst hye
        have h1 := rat x hx (by rw [hsnd, hlen]; exact hle')
        rw [hsnd] at h1
        rw [hsnd, h1]
        rcases hgx : g x y with _ | c <;> simp only [hgx]
        exact huntouched (y * w + x) (Nat.le_add_right _ _)

/-- The normalized, then aspect-corrected position of pixel (x, y) in
sdf_lines. -/
noncomputable def sdfCurr (img : PPMImage ℝ) (x y : ℕ) : Point2 ℝ :=
  withAspectR img ⟨(x : ℝ) / (img.width : ℝ), 1 - (y : ℝ) / (img.height : ℝ)⟩

/-- PPMImage::sdf_lines: the row-major double loop with the running write
index, each pixel scanning the batch in reverse submission order and taking
the first hit's color. -/
noncomputable def sdfLines (img : PPMImage ℝ) (lines : List LineR) : PPMImage ℝ :=
  { img with data :=
      ((List.range img.height).foldl
        (fun st y => (List.range img.width).foldl
          (sdfStep (fun x => firstHitCode (sdfCurr img x y) lines.reverse)) st)
        (img.data, 0)).1 }

/--
C8.  For every batch of lines and every pixel (x, y) of the buffer, submit
(sdf_lines) colors the pixel with the color of the most-recently-submitted
line containing it: the batch is scanned in reverse submission order and the
first hit wins, where membership is exactly "either endpoint-cap circle SDF
or the body rounded-rectangle SDF is negative at the aspect-corrected pixel
position" — the squared-distance clip early-reject never rejects a member,
so it drops out of the statement — and a pixel contained in no line keeps
its previous color.  Well-formedness (positive thickness, distinct
aspect-corrected endpoints, fields as the drawer precomputes them) is what
DeferredSDFDrawer::line guarantees, restated by the last conjunct.
-/
theorem claim_C8 (img : PPMImage ℝ) (lines : List LineR) (x y : ℕ)
    (hx : x < img.width) (hy : y < img.height)
    (hdata : img.data.length = img.width * img.height)
    (hwf : ∀ l ∈ lines, l.wf) :
    ((sdfLines img lines).data.get? (y * img.width + x) =
      match firstHitSpec (sdfCurr img x y) lines.reverse with
      | some c => some c
      | none => img.data.get? (y * img.width + x))
    ∧ (∀ (atan2R : ℝ → ℝ → ℝ) (img' : PPMImage ℝ) (p0 p1 : Point2 ℝ)
        (th : ℝ) (c : Color), 0 < th → withAspectR img' p0 ≠ withAspectR img' p1 →
        (mkLine atan2R img' p0 p1 th c).wf) := by
  constructor
  · obtain ⟨hsnd, hlen, huntouched, hat⟩ := sdfRows_spec
      (fun x y => firstHitCode (sdfCurr img x y) lines.reverse) img.width
      img.height img.data
    have h1 := hat y x hy hx (by rw [hdata, Nat.mul_comm])
    rw [sdfLines]
    rw [h1]
    have heq : firstHitCode (sdfCurr img x y) lines.reverse =
        firstHitSpec (sdfCurr img x y) lines.reverse :=
      firstHit_eq _ _ (fun l hl => hwf l (List.mem_reverse.mp hl))
    rw [heq]
  · intro atan2R img' p0 p1 th c hth hne
    exact mkLine_wf atan2R img' p0 p1 th c hth hne

/-- Witness for claim_C8: a 1 x 1 buffer and the empty batch satisfy every
hypothesis, and the characterization evaluates accordingly. -/
theorem claim_C8_witness :
    ((sdfLines ⟨[⟨0, 0, 0⟩], 1, 1, true, 1⟩ []).data.get? (0 * 1 + 0) =
      match firstHitSpec (sdfCurr ⟨[⟨0, 0, 0⟩], 1, 1, true, 1⟩ 0 0)
          ([] : List LineR).reverse with
      | some c => some c
      | none => (⟨[⟨0, 0, 0⟩], 1, 1, true, 1⟩ : PPMImage ℝ).data.get? (0 * 1 + 0))
    ∧ (∀ (atan2R : ℝ → ℝ → ℝ) (img' : PPMImage ℝ) (p0 p1 : Point2 ℝ)
        (th : ℝ) (c : Color), 0 < th → withAspectR img' p0 ≠ withAspectR img' p1 →
        (mkLine atan2R img' p0 p1 th c).wf) :=
  claim_C8 ⟨[⟨0, 0, 0⟩], 1, 1, true, 1⟩ [] 0 0 (by decide) (by decide) (by rfl)
    (by simp)
